import Mathlib

/-!
Shallow embedding of the MarketSim matching engine and evolutionary
population management (src/src/market.cpp, src/src/headers/market.hpp,
src/src/headers/order.hpp, src/src/traders/base.hpp,
src/src/makers/MarketMaker.hpp, src/src/init_traders.cpp).

Modelling conventions:
* C++ `double` prices/quantities are embedded as `ℚ`; `int` ids and
  timesteps as `ℤ`.  None of the verified properties depends on
  floating-point rounding; `DBL_MAX` is embedded as the exact rational
  value of the largest finite IEEE-754 double.
* The two `std::map<double, std::queue<Order>>` book sides are embedded
  as association lists of (price, FIFO queue) pairs kept in key order
  (descending for buys, ascending for sells), mirroring the map's
  iteration order; `queue::push` appends at the back, `front`/`pop`
  work at the front.
* `std::unordered_map<int, shared_ptr<Trader>>` is embedded as a
  function `ℤ → Option Trader`, updated pointwise.
* The in-loop mutation of `this->sells` (resp. `buys`) in
  `Market::process_aggressive_order` is embedded by threading the
  mutated book side as an explicit argument of the loop function and
  re-installing it in the state afterwards.
-/

/-- Mirrors `struct Order` in src/src/headers/order.hpp. -/
structure Order where
  type : String
  price : ℚ
  trader_id : ℤ
  timestep : ℤ
  trader_type : String
  position_size : ℚ
deriving Repr, DecidableEq

/-- Mirrors `struct Trade` in src/src/headers/order.hpp. -/
structure Trade where
  price : ℚ
  quantity : ℚ
  buyer_id : ℤ
  seller_id : ℤ
  timestep : ℤ
  buyer_type : String
  seller_type : String
deriving Repr, DecidableEq

/-- Strategy parameters of the three concrete trader classes
(`MonkeyTrader` in src/src/traders/Monkey.hpp, `MomentumTrader` in
src/src/traders/MomentumTrader.hpp, and `MeanReverter`).
Modelled from the spec: the file src/src/traders/MeanReverter.hpp is
referenced by the build (src/src/headers/init/initial_market_state.hpp)
but is not present under src/; per the spec it is a trader with a
short/long moving-average window pair, symmetric to `MomentumTrader`. -/
inductive TraderParams where
  | monkey (noise_weight : ℚ)
  | meanReverter (short_ma_window long_ma_window : ℤ)
  | momentum (short_ma_window long_ma_window : ℤ)
deriving Repr, DecidableEq

/-- Mirrors `class Trader` in src/src/traders/base.hpp: identity, type
label, mutable cash (default 100000) and position (default 10), plus
the class-specific strategy parameters. -/
structure Trader where
  trader_id : ℤ
  trader_type : String
  cash : ℚ := 100000
  position : ℚ := 10
  params : TraderParams
deriving Repr, DecidableEq

/-- Mirrors `Trader::update_position` in src/src/traders/base.hpp:
on "BUY" `cash -= price; position += quantity`, otherwise
`cash += price; position -= quantity`. -/
def Trader.update_position (t : Trader) (type : String) (price quantity : ℚ) : Trader :=
  if type = "BUY" then
    { t with cash := t.cash - price, position := t.position + quantity }
  else
    { t with cash := t.cash + price, position := t.position - quantity }

/-- Mirrors `Trader::get_value` in src/src/traders/base.hpp. -/
def Trader.get_value (t : Trader) (market_price : ℚ) : ℚ :=
  t.position * market_price + t.cash

/-- Mirrors `class MarketMaker` in src/src/makers/MarketMaker.hpp. -/
structure MarketMaker where
  id : ℤ
  fundamental_price : ℚ
  spread : ℚ
deriving Repr, DecidableEq

/-- Mirrors `MarketMaker::get_fundamental_price(double)` which simply
returns the current market price. -/
def MarketMaker.get_fundamental_price (_mm : MarketMaker) (current_market_price : ℚ) : ℚ :=
  current_market_price

/-- Mirrors `MarketMaker::quote` in src/src/makers/MarketMaker.hpp:
two orders around fair value offset by half the spread, size 10,
origin timestep hard-coded to 0, type label "MarketMaker"
(`noise` is the literal 0 in the source). -/
def MarketMaker.quote (mm : MarketMaker) (current_market_price : ℚ) : List Order :=
  let fair_value := mm.get_fundamental_price current_market_price
  let noise : ℚ := 0
  let bid := fair_value - mm.spread / 2 + noise
  let ask := fair_value + mm.spread / 2 + noise
  let size : ℚ := 10
  [ { type := "BUY", price := bid, trader_id := mm.id, timestep := 0,
      trader_type := "MarketMaker", position_size := size },
    { type := "SELL", price := ask, trader_id := mm.id, timestep := 0,
      trader_type := "MarketMaker", position_size := size } ]

/-- One price level: the map key together with its FIFO queue of resting
orders (front of the queue = head of the list). -/
abbrev BookSide := List (ℚ × List Order)

/-- All resting orders of a book side, best level first, queue order
within a level. -/
def ordersOf (b : BookSide) : List Order := b.flatMap (·.2)

/-- Total number of resting orders on a book side. -/
def countOrders (b : BookSide) : ℕ := (b.map fun l => l.2.length).sum

/-- A book side with no empty price level (the spec's "level
cleanliness" invariant). -/
def cleanSide (b : BookSide) : Prop := ∀ l ∈ b, l.2 ≠ []

instance (b : BookSide) : Decidable (cleanSide b) := by
  unfold cleanSide; infer_instance

/-- Mirrors `buys[price].push(order)` on the descending
`std::map<double, std::queue<Order>, std::greater<double>>`: append to
the queue at an existing key, or create the level at its sorted
position. -/
def buysPush (price : ℚ) (o : Order) : BookSide → BookSide
  | [] => [(price, [o])]
  | (q, os) :: rest =>
    if price = q then (q, os ++ [o]) :: rest
    else if q < price then (price, [o]) :: (q, os) :: rest
    else (q, os) :: buysPush price o rest

/-- Mirrors `sells[price].push(order)` on the ascending
`std::map<double, std::queue<Order>>`. -/
def sellsPush (price : ℚ) (o : Order) : BookSide → BookSide
  | [] => [(price, [o])]
  | (q, os) :: rest =>
    if price = q then (q, os ++ [o]) :: rest
    else if price < q then (price, [o]) :: (q, os) :: rest
    else (q, os) :: sellsPush price o rest

/-- Mirrors the repeated pattern `it->second.pop(); if (it->second.empty())
book.erase(it);` applied to the front level, whose queue was
`front :: os'`: keep the level with queue `os'` unless that is empty. -/
def levelPop (p : ℚ) (os' : List Order) (rest : BookSide) : BookSide :=
  if os' = [] then rest else (p, os') :: rest

/-- Mirrors the per-side body of `Market::clear_market_maker_orders`
(src/src/market.cpp lines 405-445): rebuild each level's queue keeping
only non-"MarketMaker" orders in order, erasing the level if the
filtered queue is empty. -/
def clearSide : BookSide → BookSide
  | [] => []
  | (p, os) :: rest =>
    let filtered := os.filter (fun o => o.trader_type ≠ "MarketMaker")
    if filtered = [] then clearSide rest else (p, filtered) :: clearSide rest

/-- The exact rational value of `std::numeric_limits<double>::max()`,
the absence sentinel returned by `Market::get_best_ask` on an empty
ask side. -/
def maxDouble : ℚ := (2 ^ 53 - 1) * 2 ^ 971

/-- The mutable market state touched by the matching-engine claims:
the subset of the `Market` object's fields (src/src/headers/market.hpp)
read or written by `process_aggressive_order`, `get_best_bid`,
`get_best_ask`, `clear_market_maker_orders` and the tick snapshot. -/
structure MarketState where
  timestep : ℤ
  max_order_age : ℤ
  market_price : ℚ
  buys : BookSide
  sells : BookSide
  trade_history : List Trade
  trader_map : ℤ → Option Trader
  trader_volume : String → ℚ
  total_trade_volume : ℚ
  total_price_volume : ℚ

/-- Mirrors `Market::get_best_bid`: 0.0 when the bid side is empty,
otherwise the first (largest) key of `buys`. -/
def get_best_bid (s : MarketState) : ℚ :=
  match s.buys with
  | [] => 0
  | (p, _) :: _ => p

/-- Mirrors `Market::get_best_ask`: `DBL_MAX` when the ask side is
empty, otherwise the first (smallest) key of `sells`. -/
def get_best_ask (s : MarketState) : ℚ :=
  match s.sells with
  | [] => maxDouble
  | (p, _) :: _ => p

/-- Mirrors the mid-price computation of `Market::tick`
(src/src/market.cpp lines 61-63):
`mid_price = (best_bid + best_ask) / 2.0`, computed unconditionally. -/
def midPrice (s : MarketState) : ℚ :=
  (get_best_bid s + get_best_ask s) / 2

/-- Mirrors the two ledger lookups and updates performed for one trade in
`Market::process_aggressive_order` (src/src/market.cpp lines 98-106 and
154-162): the buyer, if present in `trader_map`, gets
`update_position("BUY", price, quantity)`, then the seller, if present,
gets `update_position("SELL", price, quantity)`. -/
def applyBuyerSeller (m : ℤ → Option Trader) (buyer seller : ℤ) (price quantity : ℚ) :
    ℤ → Option Trader :=
  let m1 : ℤ → Option Trader := fun i =>
    if i = buyer then (m i).map (fun t => t.update_position "BUY" price quantity) else m i
  fun i =>
    if i = seller then (m1 i).map (fun t => t.update_position "SELL" price quantity) else m1 i

/-- Mirrors `Market::clear_market_maker_orders`: both book sides are
filtered of "MarketMaker" orders. -/
def clear_market_maker_orders (s : MarketState) : MarketState :=
  { s with buys := clearSide s.buys, sells := clearSide s.sells }

/-- Termination measure for the matching loop of
`Market::process_aggressive_order`: once the remaining quantity is
exhausted the loop stops immediately; otherwise each iteration either
removes a resting order (or an empty level) from the opposing side, or
re-inserts a partially filled resting order, in which case the incoming
remainder has just become zero. -/
def loopMeasure (b : BookSide) (rem : Order) : ℕ :=
  if 0 < rem.position_size then 2 * (countOrders b + b.length) + 2 else 0

theorem countOrders_cons (p : ℚ) (os : List Order) (rest : BookSide) :
    countOrders ((p, os) :: rest) = os.length + countOrders rest := by
  simp [countOrders]

theorem levelPop_nil (p : ℚ) (rest : BookSide) : levelPop p [] rest = rest := by
  simp [levelPop]

theorem levelPop_cons (p : ℚ) (os' : List Order) (rest : BookSide) (h : os' ≠ []) :
    levelPop p os' rest = (p, os') :: rest := by
  simp [levelPop, h]

theorem loopMeasure_le (b : BookSide) (rem : Order) :
    loopMeasure b rem ≤ 2 * (countOrders b + b.length) + 2 := by
  unfold loopMeasure; split <;> omega

theorem loopMeasure_pos_eq (b : BookSide) (rem : Order) (h : 0 < rem.position_size) :
    loopMeasure b rem = 2 * (countOrders b + b.length) + 2 := by
  unfold loopMeasure; rw [if_pos h]

theorem loopMeasure_erase_empty (p : ℚ) (rest : BookSide) (rem rem' : Order)
    (h : 0 < rem.position_size) :
    loopMeasure rest rem' < loopMeasure ((p, []) :: rest) rem := by
  have h1 := loopMeasure_le rest rem'
  rw [loopMeasure_pos_eq _ _ h, countOrders_cons]
  simp only [List.length_cons, List.length_nil]
  omega

theorem loopMeasure_levelPop_lt (p : ℚ) (o : Order) (os' : List Order) (rest : BookSide)
    (rem rem' : Order) (h : 0 < rem.position_size) :
    loopMeasure (levelPop p os' rest) rem' < loopMeasure ((p, o :: os') :: rest) rem := by
  rw [loopMeasure_pos_eq _ _ h, countOrders_cons]
  by_cases he : os' = []
  · subst he
    rw [levelPop_nil]
    have h1 := loopMeasure_le rest rem'
    simp only [List.length_cons, List.length_nil]
    omega
  · rw [levelPop_cons _ _ _ he]
    have h1 := loopMeasure_le ((p, os') :: rest) rem'
    rw [countOrders_cons] at h1
    simp only [List.length_cons] at h1 ⊢
    omega

theorem loopMeasure_reinsert_lt (b : BookSide) (p : ℚ) (o : Order) (os' : List Order)
    (rest : BookSide) (rem rem' : Order) (h : 0 < rem.position_size)
    (h0 : rem'.position_size = 0) :
    loopMeasure b rem' < loopMeasure ((p, o :: os') :: rest) rem := by
  unfold loopMeasure
  rw [if_pos h, if_neg (by rw [h0]; exact lt_irrefl 0)]
  omega

/-- The `Trade` record constructed for one executed match in the
incoming-BUY branch of `Market::process_aggressive_order`
(src/src/market.cpp line 108): maker price, matched quantity, the
incoming order as buyer, the front resting order as seller. -/
def buyTrade (s : MarketState) (rem o : Order) : Trade :=
  { price := o.price, quantity := min rem.position_size o.position_size,
    buyer_id := rem.trader_id, seller_id := o.trader_id,
    timestep := s.timestep,
    buyer_type := rem.trader_type, seller_type := o.trader_type }

/-- The non-book state mutations performed for one executed match in the
incoming-BUY branch of `Market::process_aggressive_order`
(src/src/market.cpp lines 91-112): volume accumulators, both ledgers,
the appended trade, and `market_price = trade_price`. -/
def buyTradeState (s : MarketState) (rem o : Order) : MarketState :=
  let trade_price := o.price
  let quantity := min rem.position_size o.position_size
  { s with
    trader_volume := fun ty =>
      if ty = rem.trader_type then s.trader_volume ty + quantity
      else s.trader_volume ty,
    total_trade_volume := s.total_trade_volume + quantity,
    total_price_volume := s.total_price_volume + trade_price * quantity,
    trader_map := applyBuyerSeller s.trader_map rem.trader_id o.trader_id
      trade_price quantity,
    trade_history := s.trade_history ++ [buyTrade s rem o],
    market_price := trade_price }

/-- Mirrors the incoming-BUY matching loop of
`Market::process_aggressive_order` (src/src/market.cpp lines 75-122).
The mutated ask side is threaded as the first explicit argument; the
front level's queue being empty is structurally impossible under the
level-cleanliness invariant (the source calls `.front()` on it) and is
totalized here as erase-and-continue. -/
def processBuyLoop : BookSide → MarketState → Order → BookSide × MarketState × Order
  | [], s, rem => ([], s, rem)
  | (p, os) :: rest, s, rem =>
    if h : p ≤ rem.price ∧ 0 < rem.position_size then
      match os with
      | [] => processBuyLoop rest s rem
      | o :: os' =>
        if o.trader_id = rem.trader_id then
          processBuyLoop (levelPop p os' rest) s rem
        else if s.max_order_age < s.timestep - o.timestep then
          processBuyLoop (levelPop p os' rest) s rem
        else
          let quantity := min rem.position_size o.position_size
          let newSell : Order :=
            { o with position_size := o.position_size - quantity }
          let s1 := buyTradeState s rem o
          if hq : 0 < newSell.position_size then
            processBuyLoop (sellsPush newSell.price newSell (levelPop p os' rest)) s1
              { rem with position_size := rem.position_size - quantity }
          else
            processBuyLoop (levelPop p os' rest) s1
              { rem with position_size := rem.position_size - quantity }
    else ((p, os) :: rest, s, rem)
termination_by b _ rem => loopMeasure b rem
decreasing_by
  · exact loopMeasure_erase_empty p rest rem rem h.2
  · exact loopMeasure_levelPop_lt p o os' rest rem rem h.2
  · exact loopMeasure_levelPop_lt p o os' rest rem rem h.2
  · have hq' : 0 < o.position_size - min rem.position_size o.position_size := hq
    have hmin : min rem.position_size o.position_size = rem.position_size := by
      rcases le_total rem.position_size o.position_size with hle | hle
      · exact min_eq_left hle
      · rw [min_eq_right hle] at hq'
        linarith
    refine loopMeasure_reinsert_lt _ p o os' rest rem _ h.2 ?_
    show rem.position_size - min rem.position_size o.position_size = 0
    rw [hmin, sub_self]
  · exact loopMeasure_levelPop_lt p o os' rest rem _ h.2

/-- The `Trade` record constructed for one executed match in the
incoming-SELL branch of `Market::process_aggressive_order`
(src/src/market.cpp line 165): maker price, matched quantity, the
front resting order as buyer, the incoming order as seller. -/
def sellTrade (s : MarketState) (rem o : Order) : Trade :=
  { price := o.price, quantity := min rem.position_size o.position_size,
    buyer_id := o.trader_id, seller_id := rem.trader_id,
    timestep := s.timestep,
    buyer_type := o.trader_type, seller_type := rem.trader_type }

/-- The non-book state mutations performed for one executed match in the
incoming-SELL branch of `Market::process_aggressive_order`
(src/src/market.cpp lines 146-169). -/
def sellTradeState (s : MarketState) (rem o : Order) : MarketState :=
  let trade_price := o.price
  let quantity := min rem.position_size o.position_size
  { s with
    trader_volume := fun ty =>
      if ty = rem.trader_type then s.trader_volume ty + quantity
      else s.trader_volume ty,
    total_trade_volume := s.total_trade_volume + quantity,
    total_price_volume := s.total_price_volume + trade_price * quantity,
    trader_map := applyBuyerSeller s.trader_map o.trader_id rem.trader_id
      trade_price quantity,
    trade_history := s.trade_history ++ [sellTrade s rem o],
    market_price := trade_price }

/-- Mirrors the incoming-SELL matching loop of
`Market::process_aggressive_order` (src/src/market.cpp lines 130-179),
symmetric to `processBuyLoop` with the bid side threaded as the first
argument. -/
def processSellLoop : BookSide → MarketState → Order → BookSide × MarketState × Order
  | [], s, rem => ([], s, rem)
  | (p, os) :: rest, s, rem =>
    if h : rem.price ≤ p ∧ 0 < rem.position_size then
      match os with
      | [] => processSellLoop rest s rem
      | o :: os' =>
        if o.trader_id = rem.trader_id then
          processSellLoop (levelPop p os' rest) s rem
        else if s.max_order_age < s.timestep - o.timestep then
          processSellLoop (levelPop p os' rest) s rem
        else
          let quantity := min rem.position_size o.position_size
          let newBuy : Order :=
            { o with position_size := o.position_size - quantity }
          let s1 := sellTradeState s rem o
          if hq : 0 < newBuy.position_size then
            processSellLoop (buysPush newBuy.price newBuy (levelPop p os' rest)) s1
              { rem with position_size := rem.position_size - quantity }
          else
            processSellLoop (levelPop p os' rest) s1
              { rem with position_size := rem.position_size - quantity }
    else ((p, os) :: rest, s, rem)
termination_by b _ rem => loopMeasure b rem
decreasing_by
  · exact loopMeasure_erase_empty p rest rem rem h.2
  · exact loopMeasure_levelPop_lt p o os' rest rem rem h.2
  · exact loopMeasure_levelPop_lt p o os' rest rem rem h.2
  · have hq' : 0 < o.position_size - min rem.position_size o.position_size := hq
    have hmin : min rem.position_size o.position_size = rem.position_size := by
      rcases le_total rem.position_size o.position_size with hle | hle
      · exact min_eq_left hle
      · rw [min_eq_right hle] at hq'
        linarith
    refine loopMeasure_reinsert_lt _ p o os' rest rem _ h.2 ?_
    show rem.position_size - min rem.position_size o.position_size = 0
    rw [hmin, sub_self]
  · exact loopMeasure_levelPop_lt p o os' rest rem _ h.2

/-- Mirrors `Market::process_aggressive_order` (src/src/market.cpp lines
71-185): a "BUY" order crosses the ask side and any remainder rests on
the bid side; a "SELL" order crosses the bid side and any remainder
rests on the ask side; any other type (e.g. "HOLD") does nothing. -/
def process_aggressive_order (s : MarketState) (order : Order) : MarketState :=
  if order.type = "BUY" then
    let r := processBuyLoop s.sells s order
    let s1 := { r.2.1 with sells := r.1 }
    if 0 < r.2.2.position_size then
      { s1 with buys := buysPush r.2.2.price r.2.2 s1.buys }
    else s1
  else if order.type = "SELL" then
    let r := processSellLoop s.buys s order
    let s1 := { r.2.1 with buys := r.1 }
    if 0 < r.2.2.position_size then
      { s1 with sells := sellsPush r.2.2.price r.2.2 s1.sells }
    else s1
  else s

/-- Comparator used by `std::sort` in `Market::evolve_traders`
(src/src/market.cpp lines 272-275): descending by
`get_value(market_price)`.  `std::sort` leaves the relative order of
ties unspecified; the embedding uses merge sort with the corresponding
non-strict "comes first" predicate, a permitted outcome. -/
def sortTraders (traders : List Trader) (market_price : ℚ) : List Trader :=
  traders.mergeSort fun a b => decide (b.get_value market_price ≤ a.get_value market_price)

/-- The three evolvable trader type labels tested in
`Market::evolve_traders` (src/src/market.cpp line 285). -/
def isEvolvableType (ty : String) : Bool :=
  ty = "Monkey" || ty = "MeanReverter" || ty = "MomentumTrader"

/-- Mirrors the survivor-identification pass of `Market::evolve_traders`
(src/src/market.cpp lines 281-289): for each of the three trader types,
the id of its highest-ranked member (first occurrence in the descending
sort), if the type is present. -/
def survivorId (sorted : List Trader) (ty : String) : Option ℤ :=
  if isEvolvableType ty then
    (sorted.find? fun t => decide (t.trader_type = ty)).map Trader.trader_id
  else none

/-- Mirrors the kill-selection loop of `Market::evolve_traders`
(src/src/market.cpp lines 291-298): walk the ranking worst-to-best
(the list argument is the reversed descending sort), skip a trader iff
it is the recorded survivor of its type, and collect ids until the
kill budget is exhausted. -/
def selectKills (survivors : String → Option ℤ) : List Trader → ℕ → List ℤ
  | _, 0 => []
  | [], _ + 1 => []
  | t :: rest, k + 1 =>
    if survivors t.trader_type = some t.trader_id then
      selectKills survivors rest (k + 1)
    else
      t.trader_id :: selectKills survivors rest k

/-- Mirrors the clone construction of `Market::evolve_traders`
(src/src/market.cpp lines 302-313): a fresh trader of the champion's
concrete class, carrying the champion's strategy parameters and the
killed agent's id, with the default ledger of `class Trader`
(cash 100000, position 10); null when the champion's type label is none
of the three classes.  Modelled from the spec: for the "MeanReverter"
branch the constructed class lives in src/src/traders/MeanReverter.hpp,
which is absent from src/; like the two classes that are present, its
constructor is modelled as storing the given id and setting its own
type label. -/
def makeClone (top : Trader) (id : ℤ) : Option Trader :=
  if top.trader_type = "Monkey" then
    some { trader_id := id, trader_type := "Monkey", params := top.params }
  else if top.trader_type = "MeanReverter" then
    some { trader_id := id, trader_type := "MeanReverter", params := top.params }
  else if top.trader_type = "MomentumTrader" then
    some { trader_id := id, trader_type := "MomentumTrader", params := top.params }
  else none

/-- Mirrors the roster write-back of `Market::evolve_traders`
(src/src/market.cpp lines 317-322): overwrite the first roster slot
whose trader id matches, leaving every other slot in place. -/
def replaceById (nt : Trader) (id : ℤ) : List Trader → List Trader
  | [] => []
  | t :: rest => if t.trader_id = id then nt :: rest else t :: replaceById nt id rest

/-- Mirrors one iteration of the replacement loop of
`Market::evolve_traders` (src/src/market.cpp lines 302-324): build the
champion's clone for the marked id and, when non-null, write it into
`trader_map[id]` and into the roster slot holding that id. -/
def evolveStep (top : Trader) (acc : List Trader × (ℤ → Option Trader)) (id : ℤ) :
    List Trader × (ℤ → Option Trader) :=
  match makeClone top id with
  | none => acc
  | some nt => (replaceById nt id acc.1, fun i => if i = id then some nt else acc.2 i)

/-- Mirrors the body of one evolution event, `Market::evolve_traders`
(src/src/market.cpp lines 269-327), acting on the roster vector and the
id-keyed `trader_map`: sort descending by value, record one protected
survivor per trader type, select the kill list worst-to-best, then run
`evolveStep` with the champion (`sorted.front()`) for each marked id.
`kill_count` (computed in the source as
`std::round(sorted.size() * kill_percentage)` in `double` arithmetic)
is passed as a parameter; the claims proved below hold for every value
of it.  The self-gate `timestep % evolution_ticks != 0` and the final
census write are identity on the roster and map and are omitted. -/
def evolve_traders (traders : List Trader) (trader_map : ℤ → Option Trader)
    (market_price : ℚ) (kill_count : ℕ) : List Trader × (ℤ → Option Trader) :=
  let sorted := sortTraders traders market_price
  let to_kill := selectKills (survivorId sorted) sorted.reverse kill_count
  match sorted.head? with
  | none => (traders, trader_map)
  | some top => to_kill.foldl (evolveStep top) (traders, trader_map)

theorem processBuyLoop_nil (s : MarketState) (rem : Order) :
    processBuyLoop [] s rem = ([], s, rem) := by
  rw [processBuyLoop]

theorem processBuyLoop_noCross (p : ℚ) (os : List Order) (rest : BookSide) (s : MarketState)
    (rem : Order) (h : ¬(p ≤ rem.price ∧ 0 < rem.position_size)) :
    processBuyLoop ((p, os) :: rest) s rem = ((p, os) :: rest, s, rem) := by
  rw [processBuyLoop.eq_def]
  simp only []
  rw [dif_neg h]

theorem processBuyLoop_empty_level (p : ℚ) (rest : BookSide) (s : MarketState) (rem : Order)
    (h : p ≤ rem.price ∧ 0 < rem.position_size) :
    processBuyLoop ((p, []) :: rest) s rem = processBuyLoop rest s rem := by
  rw [processBuyLoop.eq_def]
  simp only []
  rw [dif_pos h]

theorem processBuyLoop_self (p : ℚ) (o : Order) (os' : List Order) (rest : BookSide)
    (s : MarketState) (rem : Order) (h : p ≤ rem.price ∧ 0 < rem.position_size)
    (hid : o.trader_id = rem.trader_id) :
    processBuyLoop ((p, o :: os') :: rest) s rem = processBuyLoop (levelPop p os' rest) s rem := by
  rw [processBuyLoop.eq_def]
  simp only []
  rw [dif_pos h, if_pos hid]

theorem processBuyLoop_stale (p : ℚ) (o : Order) (os' : List Order) (rest : BookSide)
    (s : MarketState) (rem : Order) (h : p ≤ rem.price ∧ 0 < rem.position_size)
    (hid : ¬o.trader_id = rem.trader_id) (hst : s.max_order_age < s.timestep - o.timestep) :
    processBuyLoop ((p, o :: os') :: rest) s rem = processBuyLoop (levelPop p os' rest) s rem := by
  rw [processBuyLoop.eq_def]
  simp only []
  rw [dif_pos h, if_neg hid, if_pos hst]

theorem processBuyLoop_trade_reinsert (p : ℚ) (o : Order) (os' : List Order) (rest : BookSide)
    (s : MarketState) (rem : Order) (h : p ≤ rem.price ∧ 0 < rem.position_size)
    (hid : ¬o.trader_id = rem.trader_id) (hst : ¬s.max_order_age < s.timestep - o.timestep)
    (hq : 0 < o.position_size - min rem.position_size o.position_size) :
    processBuyLoop ((p, o :: os') :: rest) s rem =
      processBuyLoop
        (sellsPush o.price
          { o with position_size := o.position_size - min rem.position_size o.position_size }
          (levelPop p os' rest))
        (buyTradeState s rem o)
        { rem with position_size := rem.position_size - min rem.position_size o.position_size } := by
  rw [processBuyLoop.eq_def]
  simp only []
  rw [dif_pos h, if_neg hid, if_neg hst, dif_pos hq]

theorem processBuyLoop_trade_full (p : ℚ) (o : Order) (os' : List Order) (rest : BookSide)
    (s : MarketState) (rem : Order) (h : p ≤ rem.price ∧ 0 < rem.position_size)
    (hid : ¬o.trader_id = rem.trader_id) (hst : ¬s.max_order_age < s.timestep - o.timestep)
    (hq : ¬0 < o.position_size - min rem.position_size o.position_size) :
    processBuyLoop ((p, o :: os') :: rest) s rem =
      processBuyLoop (levelPop p os' rest) (buyTradeState s rem o)
        { rem with position_size := rem.position_size - min rem.position_size o.position_size } := by
  rw [processBuyLoop.eq_def]
  simp only []
  rw [dif_pos h, if_neg hid, if_neg hst, dif_neg hq]

theorem processSellLoop_nil (s : MarketState) (rem : Order) :
    processSellLoop [] s rem = ([], s, rem) := by
  rw [processSellLoop]

theorem processSellLoop_noCross (p : ℚ) (os : List Order) (rest : BookSide) (s : MarketState)
    (rem : Order) (h : ¬(rem.price ≤ p ∧ 0 < rem.position_size)) :
    processSellLoop ((p, os) :: rest) s rem = ((p, os) :: rest, s, rem) := by
  rw [processSellLoop.eq_def]
  simp only []
  rw [dif_neg h]

theorem processSellLoop_empty_level (p : ℚ) (rest : BookSide) (s : MarketState) (rem : Order)
    (h : rem.price ≤ p ∧ 0 < rem.position_size) :
    processSellLoop ((p, []) :: rest) s rem = processSellLoop rest s rem := by
  rw [processSellLoop.eq_def]
  simp only []
  rw [dif_pos h]

theorem processSellLoop_self (p : ℚ) (o : Order) (os' : List Order) (rest : BookSide)
    (s : MarketState) (rem : Order) (h : rem.price ≤ p ∧ 0 < rem.position_size)
    (hid : o.trader_id = rem.trader_id) :
    processSellLoop ((p, o :: os') :: rest) s rem =
      processSellLoop (levelPop p os' rest) s rem := by
  rw [processSellLoop.eq_def]
  simp only []
  rw [dif_pos h, if_pos hid]

theorem processSellLoop_stale (p : ℚ) (o : Order) (os' : List Order) (rest : BookSide)
    (s : MarketState) (rem : Order) (h : rem.price ≤ p ∧ 0 < rem.position_size)
    (hid : ¬o.trader_id = rem.trader_id) (hst : s.max_order_age < s.timestep - o.timestep) :
    processSellLoop ((p, o :: os') :: rest) s rem =
      processSellLoop (levelPop p os' rest) s rem := by
  rw [processSellLoop.eq_def]
  simp only []
  rw [dif_pos h, if_neg hid, if_pos hst]

theorem processSellLoop_trade_reinsert (p : ℚ) (o : Order) (os' : List Order) (rest : BookSide)
    (s : MarketState) (rem : Order) (h : rem.price ≤ p ∧ 0 < rem.position_size)
    (hid : ¬o.trader_id = rem.trader_id) (hst : ¬s.max_order_age < s.timestep - o.timestep)
    (hq : 0 < o.position_size - min rem.position_size o.position_size) :
    processSellLoop ((p, o :: os') :: rest) s rem =
      processSellLoop
        (buysPush o.price
          { o with position_size := o.position_size - min rem.position_size o.position_size }
          (levelPop p os' rest))
        (sellTradeState s rem o)
        { rem with position_size := rem.position_size - min rem.position_size o.position_size } := by
  rw [processSellLoop.eq_def]
  simp only []
  rw [dif_pos h, if_neg hid, if_neg hst, dif_pos hq]

theorem processSellLoop_trade_full (p : ℚ) (o : Order) (os' : List Order) (rest : BookSide)
    (s : MarketState) (rem : Order) (h : rem.price ≤ p ∧ 0 < rem.position_size)
    (hid : ¬o.trader_id = rem.trader_id) (hst : ¬s.max_order_age < s.timestep - o.timestep)
    (hq : ¬0 < o.position_size - min rem.position_size o.position_size) :
    processSellLoop ((p, o :: os') :: rest) s rem =
      processSellLoop (levelPop p os' rest) (sellTradeState s rem o)
        { rem with position_size := rem.position_size - min rem.position_size o.position_size } := by
  rw [processSellLoop.eq_def]
  simp only []
  rw [dif_pos h, if_neg hid, if_neg hst, dif_neg hq]

theorem ordersOf_nil : ordersOf [] = [] := rfl

theorem ordersOf_cons (p : ℚ) (os : List Order) (rest : BookSide) :
    ordersOf ((p, os) :: rest) = os ++ ordersOf rest := by
  simp [ordersOf]

theorem ordersOf_levelPop_subset (p : ℚ) (o : Order) (os' : List Order) (rest : BookSide) :
    ∀ x ∈ ordersOf (levelPop p os' rest), x ∈ ordersOf ((p, o :: os') :: rest) := by
  intro x hx
  by_cases he : os' = []
  · subst he
    rw [levelPop_nil] at hx
    simp [ordersOf_cons]
    tauto
  · rw [levelPop_cons _ _ _ he, ordersOf_cons] at hx
    simp [ordersOf_cons] at hx ⊢
    tauto

theorem mem_ordersOf_sellsPush (q : ℚ) (o : Order) (b : BookSide) :
    ∀ x ∈ ordersOf (sellsPush q o b), x = o ∨ x ∈ ordersOf b := by
  induction b with
  | nil =>
    intro x hx
    simp [sellsPush, ordersOf] at hx
    tauto
  | cons l rest ih =>
    obtain ⟨pl, osl⟩ := l
    intro x hx
    rw [sellsPush] at hx
    by_cases h1 : q = pl
    · rw [if_pos h1, ordersOf_cons] at hx
      simp [ordersOf_cons] at hx ⊢
      tauto
    · rw [if_neg h1] at hx
      by_cases h2 : q < pl
      · rw [if_pos h2] at hx
        simp [ordersOf_cons, ordersOf] at hx ⊢
        tauto
      · rw [if_neg h2, ordersOf_cons] at hx
        simp [ordersOf_cons] at hx ⊢
        rcases hx with hx | hx
        · tauto
        · rcases ih x hx with h | h <;> tauto

theorem mem_ordersOf_buysPush (q : ℚ) (o : Order) (b : BookSide) :
    ∀ x ∈ ordersOf (buysPush q o b), x = o ∨ x ∈ ordersOf b := by
  induction b with
  | nil =>
    intro x hx
    simp [buysPush, ordersOf] at hx
    tauto
  | cons l rest ih =>
    obtain ⟨pl, osl⟩ := l
    intro x hx
    rw [buysPush] at hx
    by_cases h1 : q = pl
    · rw [if_pos h1, ordersOf_cons] at hx
      simp [ordersOf_cons] at hx ⊢
      tauto
    · rw [if_neg h1] at hx
      by_cases h2 : pl < q
      · rw [if_pos h2] at hx
        simp [ordersOf_cons, ordersOf] at hx ⊢
        tauto
      · rw [if_neg h2, ordersOf_cons] at hx
        simp [ordersOf_cons] at hx ⊢
        rcases hx with hx | hx
        · tauto
        · rcases ih x hx with h | h <;> tauto

theorem isSome_ite_map {α : Type} (c : Prop) [Decidable c] (f : α → α) (x : Option α) :
    (if c then x.map f else x).isSome = x.isSome := by
  split <;> simp

theorem applyBuyerSeller_isSome (m : ℤ → Option Trader) (buyer seller : ℤ) (price q : ℚ)
    (i : ℤ) : ((applyBuyerSeller m buyer seller price q) i).isSome = (m i).isSome := by
  unfold applyBuyerSeller
  dsimp only
  rw [isSome_ite_map, isSome_ite_map]

theorem processBuyLoop_state (b : BookSide) (s : MarketState) (rem : Order) :
    (processBuyLoop b s rem).2.1.timestep = s.timestep ∧
    (processBuyLoop b s rem).2.1.max_order_age = s.max_order_age ∧
    (processBuyLoop b s rem).2.1.buys = s.buys ∧
    ∀ i, ((processBuyLoop b s rem).2.1.trader_map i).isSome = (s.trader_map i).isSome := by
  induction b, s, rem using processBuyLoop.induct with
  | case1 s rem =>
    rw [processBuyLoop_nil]
    exact ⟨rfl, rfl, rfl, fun i => rfl⟩
  | case2 p rest s rem h ih =>
    rw [processBuyLoop_empty_level p rest s rem h]
    exact ih
  | case3 p rest s rem h o os' hid ih =>
    rw [processBuyLoop_self p o os' rest s rem h hid]
    exact ih
  | case4 p rest s rem h o os' hid hst ih =>
    rw [processBuyLoop_stale p o os' rest s rem h hid hst]
    exact ih
  | case5 p rest s rem h o os' hid hst =>
    rename_i quantity newSell s1 hq ih
    rw [processBuyLoop_trade_reinsert p o os' rest s rem h hid hst hq]
    refine ⟨ih.1, ih.2.1, ih.2.2.1, fun i => (ih.2.2.2 i).trans ?_⟩
    exact applyBuyerSeller_isSome s.trader_map rem.trader_id o.trader_id o.price
      (min rem.position_size o.position_size) i
  | case6 p rest s rem h o os' hid hst =>
    rename_i quantity newSell s1 hq ih
    rw [processBuyLoop_trade_full p o os' rest s rem h hid hst hq]
    refine ⟨ih.1, ih.2.1, ih.2.2.1, fun i => (ih.2.2.2 i).trans ?_⟩
    exact applyBuyerSeller_isSome s.trader_map rem.trader_id o.trader_id o.price
      (min rem.position_size o.position_size) i
  | case7 p os rest s rem h =>
    rw [processBuyLoop_noCross p os rest s rem h]
    exact ⟨rfl, rfl, rfl, fun i => rfl⟩

theorem processSellLoop_state (b : BookSide) (s : MarketState) (rem : Order) :
    (processSellLoop b s rem).2.1.timestep = s.timestep ∧
    (processSellLoop b s rem).2.1.max_order_age = s.max_order_age ∧
    (processSellLoop b s rem).2.1.sells = s.sells ∧
    ∀ i, ((processSellLoop b s rem).2.1.trader_map i).isSome = (s.trader_map i).isSome := by
  induction b, s, rem using processSellLoop.induct with
  | case1 s rem =>
    rw [processSellLoop_nil]
    exact ⟨rfl, rfl, rfl, fun i => rfl⟩
  | case2 p rest s rem h ih =>
    rw [processSellLoop_empty_level p rest s rem h]
    exact ih
  | case3 p rest s rem h o os' hid ih =>
    rw [processSellLoop_self p o os' rest s rem h hid]
    exact ih
  | case4 p rest s rem h o os' hid hst ih =>
    rw [processSellLoop_stale p o os' rest s rem h hid hst]
    exact ih
  | case5 p rest s rem h o os' hid hst =>
    rename_i quantity newBuy s1 hq ih
    rw [processSellLoop_trade_reinsert p o os' rest s rem h hid hst hq]
    refine ⟨ih.1, ih.2.1, ih.2.2.1, fun i => (ih.2.2.2 i).trans ?_⟩
    exact applyBuyerSeller_isSome s.trader_map o.trader_id rem.trader_id o.price
      (min rem.position_size o.position_size) i
  | case6 p rest s rem h o os' hid hst =>
    rename_i quantity newBuy s1 hq ih
    rw [processSellLoop_trade_full p o os' rest s rem h hid hst hq]
    refine ⟨ih.1, ih.2.1, ih.2.2.1, fun i => (ih.2.2.2 i).trans ?_⟩
    exact applyBuyerSeller_isSome s.trader_map o.trader_id rem.trader_id o.price
      (min rem.position_size o.position_size) i
  | case7 p os rest s rem h =>
    rw [processSellLoop_noCross p os rest s rem h]
    exact ⟨rfl, rfl, rfl, fun i => rfl⟩

theorem mem_ordersOf_head (p : ℚ) (o : Order) (os' : List Order) (rest : BookSide) :
    o ∈ ordersOf ((p, o :: os') :: rest) := by
  rw [ordersOf_cons]
  exact List.mem_append_left _ (List.mem_cons_self o os')

theorem processBuyLoop_trades (b : BookSide) (s : MarketState) (rem : Order) :
    ∃ new, (processBuyLoop b s rem).2.1.trade_history = s.trade_history ++ new ∧
      ∀ t ∈ new,
        t.buyer_id = rem.trader_id ∧ t.buyer_type = rem.trader_type ∧
        t.timestep = s.timestep ∧
        ∃ o ∈ ordersOf b,
          t.price = o.price ∧ t.seller_id = o.trader_id ∧ t.seller_type = o.trader_type ∧
          o.trader_id ≠ rem.trader_id ∧ s.timestep - o.timestep ≤ s.max_order_age := by
  induction b, s, rem using processBuyLoop.induct with
  | case1 s rem =>
    rw [processBuyLoop_nil]
    exact ⟨[], by simp, by simp⟩
  | case2 p rest s rem h ih =>
    rw [processBuyLoop_empty_level p rest s rem h]
    obtain ⟨new, h1, h2⟩ := ih
    refine ⟨new, h1, fun t ht => ?_⟩
    obtain ⟨hb1, hb2, hb3, o', ho', hrest⟩ := h2 t ht
    refine ⟨hb1, hb2, hb3, o', ?_, hrest⟩
    rw [ordersOf_cons]
    exact List.mem_append_right _ ho'
  | case3 p rest s rem h o os' hid ih =>
    rw [processBuyLoop_self p o os' rest s rem h hid]
    obtain ⟨new, h1, h2⟩ := ih
    refine ⟨new, h1, fun t ht => ?_⟩
    obtain ⟨hb1, hb2, hb3, o', ho', hrest⟩ := h2 t ht
    exact ⟨hb1, hb2, hb3, o', ordersOf_levelPop_subset p o os' rest o' ho', hrest⟩
  | case4 p rest s rem h o os' hid hst ih =>
    rw [processBuyLoop_stale p o os' rest s rem h hid hst]
    obtain ⟨new, h1, h2⟩ := ih
    refine ⟨new, h1, fun t ht => ?_⟩
    obtain ⟨hb1, hb2, hb3, o', ho', hrest⟩ := h2 t ht
    exact ⟨hb1, hb2, hb3, o', ordersOf_levelPop_subset p o os' rest o' ho', hrest⟩
  | case5 p rest s rem h o os' hid hst =>
    rename_i quantity newSell s1 hq ih
    rw [processBuyLoop_trade_reinsert p o os' rest s rem h hid hst hq]
    obtain ⟨new1, h1, h2⟩ := ih
    refine ⟨buyTrade s rem o :: new1, ?_, ?_⟩
    · have heq : (s.trade_history ++ [buyTrade s rem o]) ++ new1 =
        s.trade_history ++ (buyTrade s rem o :: new1) := by simp
      exact h1.trans heq
    · intro t ht
      rcases List.mem_cons.mp ht with rfl | ht1
      · exact ⟨rfl, rfl, rfl, o, mem_ordersOf_head p o os' rest, rfl, rfl, rfl,
          hid, le_of_not_lt hst⟩
      · obtain ⟨hb1, hb2, hb3, o', ho', hpr, hsi, hstt, hne, hstale⟩ := h2 t ht1
        refine ⟨hb1, hb2, hb3, ?_⟩
        rcases mem_ordersOf_sellsPush _ _ _ o' ho' with rfl | hmem
        · exact ⟨o, mem_ordersOf_head p o os' rest, hpr, hsi, hstt, hne, hstale⟩
        · exact ⟨o', ordersOf_levelPop_subset p o os' rest o' hmem, hpr, hsi, hstt,
            hne, hstale⟩
  | case6 p rest s rem h o os' hid hst =>
    rename_i quantity newSell s1 hq ih
    rw [processBuyLoop_trade_full p o os' rest s rem h hid hst hq]
    obtain ⟨new1, h1, h2⟩ := ih
    refine ⟨buyTrade s rem o :: new1, ?_, ?_⟩
    · have heq : (s.trade_history ++ [buyTrade s rem o]) ++ new1 =
        s.trade_history ++ (buyTrade s rem o :: new1) := by simp
      exact h1.trans heq
    · intro t ht
      rcases List.mem_cons.mp ht with rfl | ht1
      · exact ⟨rfl, rfl, rfl, o, mem_ordersOf_head p o os' rest, rfl, rfl, rfl,
          hid, le_of_not_lt hst⟩
      · obtain ⟨hb1, hb2, hb3, o', ho', hpr, hsi, hstt, hne, hstale⟩ := h2 t ht1
        exact ⟨hb1, hb2, hb3, o', ordersOf_levelPop_subset p o os' rest o' ho', hpr,
          hsi, hstt, hne, hstale⟩
  | case7 p os rest s rem h =>
    rw [processBuyLoop_noCross p os rest s rem h]
    exact ⟨[], by simp, by simp⟩

theorem processSellLoop_trades (b : BookSide) (s : MarketState) (rem : Order) :
    ∃ new, (processSellLoop b s rem).2.1.trade_history = s.trade_history ++ new ∧
      ∀ t ∈ new,
        t.seller_id = rem.trader_id ∧ t.seller_type = rem.trader_type ∧
        t.timestep = s.timestep ∧
        ∃ o ∈ ordersOf b,
          t.price = o.price ∧ t.buyer_id = o.trader_id ∧ t.buyer_type = o.trader_type ∧
          o.trader_id ≠ rem.trader_id ∧ s.timestep - o.timestep ≤ s.max_order_age := by
  induction b, s, rem using processSellLoop.induct with
  | case1 s rem =>
    rw [processSellLoop_nil]
    exact ⟨[], by simp, by simp⟩
  | case2 p rest s rem h ih =>
    rw [processSellLoop_empty_level p rest s rem h]
    obtain ⟨new, h1, h2⟩ := ih
    refine ⟨new, h1, fun t ht => ?_⟩
    obtain ⟨hb1, hb2, hb3, o', ho', hrest⟩ := h2 t ht
    refine ⟨hb1, hb2, hb3, o', ?_, hrest⟩
    rw [ordersOf_cons]
    exact List.mem_append_right _ ho'
  | case3 p rest s rem h o os' hid ih =>
    rw [processSellLoop_self p o os' rest s rem h hid]
    obtain ⟨new, h1, h2⟩ := ih
    refine ⟨new, h1, fun t ht => ?_⟩
    obtain ⟨hb1, hb2, hb3, o', ho', hrest⟩ := h2 t ht
    exact ⟨hb1, hb2, hb3, o', ordersOf_levelPop_subset p o os' rest o' ho', hrest⟩
  | case4 p rest s rem h o os' hid hst ih =>
    rw [processSellLoop_stale p o os' rest s rem h hid hst]
    obtain ⟨new, h1, h2⟩ := ih
    refine ⟨new, h1, fun t ht => ?_⟩
    obtain ⟨hb1, hb2, hb3, o', ho', hrest⟩ := h2 t ht
    exact ⟨hb1, hb2, hb3, o', ordersOf_levelPop_subset p o os' rest o' ho', hrest⟩
  | case5 p rest s rem h o os' hid hst =>
    rename_i quantity newBuy s1 hq ih
    rw [processSellLoop_trade_reinsert p o os' rest s rem h hid hst hq]
    obtain ⟨new1, h1, h2⟩ := ih
    refine ⟨sellTrade s rem o :: new1, ?_, ?_⟩
    · have heq : (s.trade_history ++ [sellTrade s rem o]) ++ new1 =
        s.trade_history ++ (sellTrade s rem o :: new1) := by simp
      exact h1.trans heq
    · intro t ht
      rcases List.mem_cons.mp ht with rfl | ht1
      · exact ⟨rfl, rfl, rfl, o, mem_ordersOf_head p o os' rest, rfl, rfl, rfl,
          hid, le_of_not_lt hst⟩
      · obtain ⟨hb1, hb2, hb3, o', ho', hpr, hsi, hstt, hne, hstale⟩ := h2 t ht1
        refine ⟨hb1, hb2, hb3, ?_⟩
        rcases mem_ordersOf_buysPush _ _ _ o' ho' with rfl | hmem
        · exact ⟨o, mem_ordersOf_head p o os' rest, hpr, hsi, hstt, hne, hstale⟩
        · exact ⟨o', ordersOf_levelPop_subset p o os' rest o' hmem, hpr, hsi, hstt,
            hne, hstale⟩
  | case6 p rest s rem h o os' hid hst =>
    rename_i quantity newBuy s1 hq ih
    rw [processSellLoop_trade_full p o os' rest s rem h hid hst hq]
    obtain ⟨new1, h1, h2⟩ := ih
    refine ⟨sellTrade s rem o :: new1, ?_, ?_⟩
    · have heq : (s.trade_history ++ [sellTrade s rem o]) ++ new1 =
        s.trade_history ++ (sellTrade s rem o :: new1) := by simp
      exact h1.trans heq
    · intro t ht
      rcases List.mem_cons.mp ht with rfl | ht1
      · exact ⟨rfl, rfl, rfl, o, mem_ordersOf_head p o os' rest, rfl, rfl, rfl,
          hid, le_of_not_lt hst⟩
      · obtain ⟨hb1, hb2, hb3, o', ho', hpr, hsi, hstt, hne, hstale⟩ := h2 t ht1
        exact ⟨hb1, hb2, hb3, o', ordersOf_levelPop_subset p o os' rest o' ho', hpr,
          hsi, hstt, hne, hstale⟩
  | case7 p os rest s rem h =>
    rw [processSellLoop_noCross p os rest s rem h]
    exact ⟨[], by simp, by simp⟩

theorem cleanSide_nil : cleanSide ([] : BookSide) := by
  intro l hl
  cases hl

theorem cleanSide_tail {l : ℚ × List Order} {rest : BookSide} (h : cleanSide (l :: rest)) :
    cleanSide rest :=
  fun x hx => h x (List.mem_cons_of_mem _ hx)

theorem cleanSide_levelPop (p : ℚ) (os' : List Order) (rest : BookSide)
    (h : cleanSide rest) : cleanSide (levelPop p os' rest) := by
  unfold levelPop
  by_cases he : os' = []
  · rw [if_pos he]
    exact h
  · rw [if_neg he]
    intro l hl
    rcases List.mem_cons.mp hl with rfl | hl2
    · exact he
    · exact h l hl2

theorem cleanSide_sellsPush (q : ℚ) (o : Order) (b : BookSide) :
    cleanSide b → cleanSide (sellsPush q o b) := by
  induction b with
  | nil =>
    intro _ l hl
    rw [sellsPush] at hl
    rcases List.mem_singleton.mp hl with rfl
    simp
  | cons hd rest ih =>
    obtain ⟨pl, osl⟩ := hd
    intro h l hl
    rw [sellsPush] at hl
    by_cases h1 : q = pl
    · rw [if_pos h1] at hl
      rcases List.mem_cons.mp hl with rfl | hl2
      · simp
      · exact h l (List.mem_cons_of_mem _ hl2)
    · rw [if_neg h1] at hl
      by_cases h2 : q < pl
      · rw [if_pos h2] at hl
        rcases List.mem_cons.mp hl with rfl | hl2
        · simp
        · exact h l hl2
      · rw [if_neg h2] at hl
        rcases List.mem_cons.mp hl with rfl | hl2
        · exact h (pl, osl) (List.mem_cons_self _ _)
        · exact ih (cleanSide_tail h) l hl2

theorem cleanSide_buysPush (q : ℚ) (o : Order) (b : BookSide) :
    cleanSide b → cleanSide (buysPush q o b) := by
  induction b with
  | nil =>
    intro _ l hl
    rw [buysPush] at hl
    rcases List.mem_singleton.mp hl with rfl
    simp
  | cons hd rest ih =>
    obtain ⟨pl, osl⟩ := hd
    intro h l hl
    rw [buysPush] at hl
    by_cases h1 : q = pl
    · rw [if_pos h1] at hl
      rcases List.mem_cons.mp hl with rfl | hl2
      · simp
      · exact h l (List.mem_cons_of_mem _ hl2)
    · rw [if_neg h1] at hl
      by_cases h2 : pl < q
      · rw [if_pos h2] at hl
        rcases List.mem_cons.mp hl with rfl | hl2
        · simp
        · exact h l hl2
      · rw [if_neg h2] at hl
        rcases List.mem_cons.mp hl with rfl | hl2
        · exact h (pl, osl) (List.mem_cons_self _ _)
        · exact ih (cleanSide_tail h) l hl2

theorem cleanSide_clearSide (b : BookSide) : cleanSide (clearSide b) := by
  induction b with
  | nil =>
    intro l hl
    cases hl
  | cons hd rest ih =>
    obtain ⟨pl, osl⟩ := hd
    rw [clearSide]
    by_cases hf : osl.filter (fun o => o.trader_type ≠ "MarketMaker") = []
    · rw [if_pos hf]
      exact ih
    · rw [if_neg hf]
      intro l hl
      rcases List.mem_cons.mp hl with rfl | hl2
      · exact hf
      · exact ih l hl2

theorem processBuyLoop_clean (b : BookSide) (s : MarketState) (rem : Order) :
    cleanSide b → cleanSide (processBuyLoop b s rem).1 := by
  induction b, s, rem using processBuyLoop.induct with
  | case1 s rem =>
    intro _
    rw [processBuyLoop_nil]
    exact cleanSide_nil
  | case2 p rest s rem h ih =>
    intro hb
    exact absurd rfl (hb (p, []) (List.mem_cons_self _ _))
  | case3 p rest s rem h o os' hid ih =>
    intro hb
    rw [processBuyLoop_self p o os' rest s rem h hid]
    exact ih (cleanSide_levelPop p os' rest (cleanSide_tail hb))
  | case4 p rest s rem h o os' hid hst ih =>
    intro hb
    rw [processBuyLoop_stale p o os' rest s rem h hid hst]
    exact ih (cleanSide_levelPop p os' rest (cleanSide_tail hb))
  | case5 p rest s rem h o os' hid hst =>
    rename_i quantity newSell s1 hq ih
    intro hb
    rw [processBuyLoop_trade_reinsert p o os' rest s rem h hid hst hq]
    exact ih (cleanSide_sellsPush _ _ _ (cleanSide_levelPop p os' rest (cleanSide_tail hb)))
  | case6 p rest s rem h o os' hid hst =>
    rename_i quantity newSell s1 hq ih
    intro hb
    rw [processBuyLoop_trade_full p o os' rest s rem h hid hst hq]
    exact ih (cleanSide_levelPop p os' rest (cleanSide_tail hb))
  | case7 p os rest s rem h =>
    intro hb
    rw [processBuyLoop_noCross p os rest s rem h]
    exact hb

theorem processSellLoop_clean (b : BookSide) (s : MarketState) (rem : Order) :
    cleanSide b → cleanSide (processSellLoop b s rem).1 := by
  induction b, s, rem using processSellLoop.induct with
  | case1 s rem =>
    intro _
    rw [processSellLoop_nil]
    exact cleanSide_nil
  | case2 p rest s rem h ih =>
    intro hb
    exact absurd rfl (hb (p, []) (List.mem_cons_self _ _))
  | case3 p rest s rem h o os' hid ih =>
    intro hb
    rw [processSellLoop_self p o os' rest s rem h hid]
    exact ih (cleanSide_levelPop p os' rest (cleanSide_tail hb))
  | case4 p rest s rem h o os' hid hst ih =>
    intro hb
    rw [processSellLoop_stale p o os' rest s rem h hid hst]
    exact ih (cleanSide_levelPop p os' rest (cleanSide_tail hb))
  | case5 p rest s rem h o os' hid hst =>
    rename_i quantity newBuy s1 hq ih
    intro hb
    rw [processSellLoop_trade_reinsert p o os' rest s rem h hid hst hq]
    exact ih (cleanSide_buysPush _ _ _ (cleanSide_levelPop p os' rest (cleanSide_tail hb)))
  | case6 p rest s rem h o os' hid hst =>
    rename_i quantity newBuy s1 hq ih
    intro hb
    rw [processSellLoop_trade_full p o os' rest s rem h hid hst hq]
    exact ih (cleanSide_levelPop p os' rest (cleanSide_tail hb))
  | case7 p os rest s rem h =>
    intro hb
    rw [processSellLoop_noCross p os rest s rem h]
    exact hb

theorem makeClone_id (top : Trader) (id : ℤ) (nt : Trader) (h : makeClone top id = some nt) :
    nt.trader_id = id := by
  unfold makeClone at h
  split_ifs at h <;> simp_all <;> exact (congrArg Trader.trader_id h.symm : _)

theorem map_id_replaceById (nt : Trader) (id : ℤ) (ts : List Trader)
    (h : nt.trader_id = id) :
    (replaceById nt id ts).map Trader.trader_id = ts.map Trader.trader_id := by
  induction ts with
  | nil => rfl
  | cons t rest ih =>
    rw [replaceById]
    by_cases ht : t.trader_id = id
    · rw [if_pos ht]
      simp [h, ht]
    · rw [if_neg ht]
      simp [ih]

theorem mem_replaceById_of_ne (nt : Trader) (id : ℤ) (ts : List Trader) (t : Trader)
    (hmem : t ∈ ts) (hne : t.trader_id ≠ id) : t ∈ replaceById nt id ts := by
  induction ts with
  | nil => cases hmem
  | cons t0 rest ih =>
    rw [replaceById]
    rcases List.mem_cons.mp hmem with rfl | hmem2
    · rw [if_neg hne]
      exact List.mem_cons_self _ _
    · by_cases h0 : t0.trader_id = id
      · rw [if_pos h0]
        exact List.mem_cons_of_mem _ hmem2
      · rw [if_neg h0]
        exact List.mem_cons_of_mem _ (ih hmem2)

theorem selectKills_spec (survivors : String → Option ℤ) (l : List Trader) (k : ℕ) :
    ∀ id ∈ selectKills survivors l k,
      ∃ t ∈ l, t.trader_id = id ∧ survivors t.trader_type ≠ some t.trader_id := by
  induction l generalizing k with
  | nil =>
    intro id hid
    cases k <;> simp [selectKills] at hid
  | cons t rest ih =>
    intro id hid
    cases k with
    | zero => simp [selectKills] at hid
    | succ k' =>
      rw [selectKills] at hid
      by_cases hs : survivors t.trader_type = some t.trader_id
      · rw [if_pos hs] at hid
        obtain ⟨t', ht', h1, h2⟩ := ih (k' + 1) id hid
        exact ⟨t', List.mem_cons_of_mem _ ht', h1, h2⟩
      · rw [if_neg hs] at hid
        rcases List.mem_cons.mp hid with rfl | hid2
        · exact ⟨t, List.mem_cons_self _ _, rfl, hs⟩
        · obtain ⟨t', ht', h1, h2⟩ := ih k' id hid2
          exact ⟨t', List.mem_cons_of_mem _ ht', h1, h2⟩

theorem foldl_evolveStep_ids (top : Trader) (ids : List ℤ)
    (acc : List Trader × (ℤ → Option Trader)) :
    ((ids.foldl (evolveStep top) acc).1).map Trader.trader_id =
      (acc.1).map Trader.trader_id := by
  induction ids generalizing acc with
  | nil => rfl
  | cons id rest ih =>
    rw [List.foldl_cons, ih]
    unfold evolveStep
    cases hmk : makeClone top id with
    | none => rfl
    | some nt =>
      exact map_id_replaceById nt id acc.1 (makeClone_id top id nt hmk)

theorem foldl_evolveStep_isSome (top : Trader) (ids : List ℤ)
    (tmap : ℤ → Option Trader) (acc : List Trader × (ℤ → Option Trader))
    (hacc : ∀ i, (acc.2 i).isSome = (tmap i).isSome)
    (hids : ∀ id ∈ ids, (tmap id).isSome = true) :
    ∀ i, ((ids.foldl (evolveStep top) acc).2 i).isSome = (tmap i).isSome := by
  induction ids generalizing acc with
  | nil => exact hacc
  | cons id rest ih =>
    rw [List.foldl_cons]
    apply ih
    · intro i
      unfold evolveStep
      cases hmk : makeClone top id with
      | none => exact hacc i
      | some nt =>
        dsimp only
        by_cases hi : i = id
        · subst hi
          rw [if_pos rfl]
          rw [hids i (List.mem_cons_self _ _)]
          rfl
        · rw [if_neg hi]
          exact hacc i
    · intro id' hid'
      exact hids id' (List.mem_cons_of_mem _ hid')

theorem foldl_evolveStep_mem (top : Trader) (ids : List ℤ)
    (acc : List Trader × (ℤ → Option Trader)) (t : Trader)
    (hmem : t ∈ acc.1) (hne : ∀ id ∈ ids, t.trader_id ≠ id) :
    t ∈ (ids.foldl (evolveStep top) acc).1 := by
  induction ids generalizing acc with
  | nil => exact hmem
  | cons id rest ih =>
    rw [List.foldl_cons]
    apply ih
    · unfold evolveStep
      cases hmk : makeClone top id with
      | none => exact hmem
      | some nt =>
        exact mem_replaceById_of_ne nt id acc.1 t hmem (hne id (List.mem_cons_self _ _))
    · intro id' hid'
      exact hne id' (List.mem_cons_of_mem _ hid')

theorem evolve_preserves_type (traders : List Trader) (tmap : ℤ → Option Trader)
    (mp : ℚ) (kill_count : ℕ) (ty : String)
    (hty : isEvolvableType ty = true)
    (hnodup : (traders.map Trader.trader_id).Nodup)
    (hmem : ∃ t ∈ traders, t.trader_type = ty) :
    ∃ t ∈ (evolve_traders traders tmap mp kill_count).1, t.trader_type = ty := by
  have hperm : (sortTraders traders mp).Perm traders := List.mergeSort_perm _ _
  obtain ⟨t0, ht0mem, ht0ty⟩ := hmem
  have ht0sorted : t0 ∈ sortTraders traders mp := hperm.mem_iff.mpr ht0mem
  have hfind : ((sortTraders traders mp).find? (fun t => decide (t.trader_type = ty))).isSome := by
    rw [List.find?_isSome]
    exact ⟨t0, ht0sorted, by simp [ht0ty]⟩
  obtain ⟨tr, htr⟩ := Option.isSome_iff_exists.mp hfind
  have htrmem : tr ∈ sortTraders traders mp := List.mem_of_find?_eq_some htr
  have htrty : tr.trader_type = ty := by simpa using List.find?_some htr
  have hsurv : survivorId (sortTraders traders mp) ty = some tr.trader_id := by
    unfold survivorId
    rw [if_pos hty, htr]
    rfl
  have hnk : ∀ id ∈ selectKills (survivorId (sortTraders traders mp))
      (sortTraders traders mp).reverse kill_count, tr.trader_id ≠ id := by
    intro id hid heq
    obtain ⟨t', ht'mem, h1, h2⟩ := selectKills_spec _ _ _ id hid
    have ht'sorted : t' ∈ sortTraders traders mp := List.mem_reverse.mp ht'mem
    have hnodup' : ((sortTraders traders mp).map Trader.trader_id).Nodup :=
      ((hperm.map Trader.trader_id).nodup_iff).mpr hnodup
    have ht'tr : t' = tr :=
      List.inj_on_of_nodup_map hnodup' ht'sorted htrmem (by rw [h1, ← heq])
    subst ht'tr
    apply h2
    rw [htrty]
    rw [hsurv, h1]
  unfold evolve_traders
  cases hh : (sortTraders traders mp).head? with
  | none =>
    simp only [hh]
    exact ⟨t0, ht0mem, ht0ty⟩
  | some top =>
    simp only [hh]
    refine ⟨tr, ?_, htrty⟩
    exact foldl_evolveStep_mem top _ (traders, tmap) tr (hperm.mem_iff.mp htrmem) hnk

theorem evolve_roster_ids (traders : List Trader) (tmap : ℤ → Option Trader)
    (mp : ℚ) (kill_count : ℕ) :
    ((evolve_traders traders tmap mp kill_count).1).map Trader.trader_id =
      traders.map Trader.trader_id := by
  unfold evolve_traders
  cases hh : (sortTraders traders mp).head? with
  | none => simp only [hh]
  | some top =>
    simp only [hh]
    exact foldl_evolveStep_ids top _ (traders, tmap)

theorem evolve_map_isSome (traders : List Trader) (tmap : ℤ → Option Trader)
    (mp : ℚ) (kill_count : ℕ)
    (hdom : ∀ t ∈ traders, (tmap t.trader_id).isSome = true) :
    ∀ i, ((evolve_traders traders tmap mp kill_count).2 i).isSome = (tmap i).isSome := by
  have hperm : (sortTraders traders mp).Perm traders := List.mergeSort_perm _ _
  unfold evolve_traders
  cases hh : (sortTraders traders mp).head? with
  | none => simp [hh]
  | some top =>
    simp only [hh]
    apply foldl_evolveStep_isSome top _ tmap (traders, tmap) (fun i => rfl)
    intro id hid
    obtain ⟨t', ht'mem, h1, _⟩ := selectKills_spec _ _ _ id hid
    have : t' ∈ traders := hperm.mem_iff.mp (List.mem_reverse.mp ht'mem)
    rw [← h1]
    exact hdom t' this

theorem process_buy_fields (s : MarketState) (order : Order) (hb : order.type = "BUY") :
    (process_aggressive_order s order).trade_history =
      (processBuyLoop s.sells s order).2.1.trade_history ∧
    (process_aggressive_order s order).sells = (processBuyLoop s.sells s order).1 ∧
    (process_aggressive_order s order).trader_map =
      (processBuyLoop s.sells s order).2.1.trader_map ∧
    (process_aggressive_order s order).buys =
      (if 0 < (processBuyLoop s.sells s order).2.2.position_size
       then buysPush (processBuyLoop s.sells s order).2.2.price
         (processBuyLoop s.sells s order).2.2 (processBuyLoop s.sells s order).2.1.buys
       else (processBuyLoop s.sells s order).2.1.buys) := by
  unfold process_aggressive_order
  rw [if_pos hb]
  simp only []
  by_cases h2 : 0 < (processBuyLoop s.sells s order).2.2.position_size
  · rw [if_pos h2, if_pos h2]
    exact ⟨rfl, rfl, rfl, rfl⟩
  · rw [if_neg h2, if_neg h2]
    exact ⟨rfl, rfl, rfl, rfl⟩

theorem process_sell_fields (s : MarketState) (order : Order) (hb : order.type ≠ "BUY")
    (hs : order.type = "SELL") :
    (process_aggressive_order s order).trade_history =
      (processSellLoop s.buys s order).2.1.trade_history ∧
    (process_aggressive_order s order).buys = (processSellLoop s.buys s order).1 ∧
    (process_aggressive_order s order).trader_map =
      (processSellLoop s.buys s order).2.1.trader_map ∧
    (process_aggressive_order s order).sells =
      (if 0 < (processSellLoop s.buys s order).2.2.position_size
       then sellsPush (processSellLoop s.buys s order).2.2.price
         (processSellLoop s.buys s order).2.2 (processSellLoop s.buys s order).2.1.sells
       else (processSellLoop s.buys s order).2.1.sells) := by
  unfold process_aggressive_order
  rw [if_neg hb, if_pos hs]
  simp only []
  by_cases h2 : 0 < (processSellLoop s.buys s order).2.2.position_size
  · rw [if_pos h2, if_pos h2]
    exact ⟨rfl, rfl, rfl, rfl⟩
  · rw [if_neg h2, if_neg h2]
    exact ⟨rfl, rfl, rfl, rfl⟩

theorem process_hold (s : MarketState) (order : Order) (hb : order.type ≠ "BUY")
    (hs : order.type ≠ "SELL") : process_aggressive_order s order = s := by
  unfold process_aggressive_order
  rw [if_neg hb, if_neg hs]

theorem process_trades_spec (s : MarketState) (order : Order) :
    ∃ new, (process_aggressive_order s order).trade_history = s.trade_history ++ new ∧
      (order.type = "BUY" → ∀ t ∈ new,
        t.buyer_id = order.trader_id ∧ t.buyer_type = order.trader_type ∧
        t.timestep = s.timestep ∧
        ∃ o ∈ ordersOf s.sells,
          t.price = o.price ∧ t.seller_id = o.trader_id ∧ t.seller_type = o.trader_type ∧
          o.trader_id ≠ order.trader_id ∧ s.timestep - o.timestep ≤ s.max_order_age) ∧
      (order.type = "SELL" → ∀ t ∈ new,
        t.seller_id = order.trader_id ∧ t.seller_type = order.trader_type ∧
        t.timestep = s.timestep ∧
        ∃ o ∈ ordersOf s.buys,
          t.price = o.price ∧ t.buyer_id = o.trader_id ∧ t.buyer_type = o.trader_type ∧
          o.trader_id ≠ order.trader_id ∧ s.timestep - o.timestep ≤ s.max_order_age) ∧
      (order.type ≠ "BUY" → order.type ≠ "SELL" → new = []) := by
  by_cases h1 : order.type = "BUY"
  · obtain ⟨new, hh, hp⟩ := processBuyLoop_trades s.sells s order
    refine ⟨new, ?_, fun _ => hp, fun h2 => absurd (h1.symm.trans h2) (by decide),
      fun hb _ => absurd h1 hb⟩
    rw [(process_buy_fields s order h1).1, hh]
  · by_cases h2 : order.type = "SELL"
    · obtain ⟨new, hh, hp⟩ := processSellLoop_trades s.buys s order
      refine ⟨new, ?_, fun hb => absurd hb h1, fun _ => hp, fun _ hs => absurd h2 hs⟩
      rw [(process_sell_fields s order h1 h2).1, hh]
    · refine ⟨[], ?_, fun hb => absurd hb h1, fun hs => absurd hs h2, fun _ _ => rfl⟩
      rw [process_hold s order h1 h2]
      simp

/-- Concrete fixtures used by the witness theorems below. -/
def noTraders : ℤ → Option Trader := fun _ => none

def zeroVolume : String → ℚ := fun _ => 0

def sampleSellOrder : Order :=
  { type := "SELL", price := 100, trader_id := 1, timestep := 0,
    trader_type := "Monkey", position_size := 5 }

def sampleState : MarketState :=
  { timestep := 0, max_order_age := 10, market_price := 100,
    buys := [], sells := [(100, [sampleSellOrder])], trade_history := [],
    trader_map := noTraders, trader_volume := zeroVolume,
    total_trade_volume := 0, total_price_volume := 0 }

def sampleBuy : Order :=
  { type := "BUY", price := 101, trader_id := 2, timestep := 0,
    trader_type := "Monkey", position_size := 3 }

def selfBuy : Order :=
  { type := "BUY", price := 101, trader_id := 1, timestep := 0,
    trader_type := "Monkey", position_size := 3 }

def restingBuy : Order :=
  { type := "BUY", price := 100, trader_id := 1, timestep := 0,
    trader_type := "Monkey", position_size := 5 }

def selfSell : Order :=
  { type := "SELL", price := 99, trader_id := 1, timestep := 0,
    trader_type := "Monkey", position_size := 3 }

def staleState : MarketState :=
  { sampleState with timestep := 20 }

/-- C1: every trade produced by `process_aggressive_order` has a buyer id
different from its seller id; and whenever the front resting order at
the best opposing level has the same owner as the incoming order (with
the loop live: crossing price, positive remaining size), that resting
order is popped and discarded with no trade, no ledger update and no
trade-history append — processing continues exactly as on the book with
that order removed, all other state untouched. -/
theorem no_self_trade :
    (∀ (s : MarketState) (order : Order),
      ∃ new, (process_aggressive_order s order).trade_history = s.trade_history ++ new ∧
        ∀ t ∈ new, t.buyer_id ≠ t.seller_id) ∧
    (∀ (p : ℚ) (o : Order) (os' : List Order) (rest : BookSide) (s : MarketState) (rem : Order),
      o.trader_id = rem.trader_id → p ≤ rem.price → 0 < rem.position_size →
      processBuyLoop ((p, o :: os') :: rest) s rem =
        processBuyLoop (levelPop p os' rest) s rem) ∧
    (∀ (p : ℚ) (o : Order) (os' : List Order) (rest : BookSide) (s : MarketState) (rem : Order),
      o.trader_id = rem.trader_id → rem.price ≤ p → 0 < rem.position_size →
      processSellLoop ((p, o :: os') :: rest) s rem =
        processSellLoop (levelPop p os' rest) s rem) := by
  refine ⟨?_, ?_, ?_⟩
  · intro s order
    obtain ⟨new, hh, hbuy, hsell, hnone⟩ := process_trades_spec s order
    refine ⟨new, hh, fun t ht => ?_⟩
    by_cases h1 : order.type = "BUY"
    · obtain ⟨hb1, _, _, o, _, _, hsi, _, hne, _⟩ := hbuy h1 t ht
      rw [hb1, hsi]
      exact fun hc => hne hc.symm
    · by_cases h2 : order.type = "SELL"
      · obtain ⟨hs1, _, _, o, _, _, hbi, _, hne, _⟩ := hsell h2 t ht
        rw [hs1, hbi]
        exact fun hc => hne hc
      · rw [hnone h1 h2] at ht
        cases ht
  · intro p o os' rest s rem hid hc hp
    exact processBuyLoop_self p o os' rest s rem ⟨hc, hp⟩ hid
  · intro p o os' rest s rem hid hc hp
    exact processSellLoop_self p o os' rest s rem ⟨hc, hp⟩ hid

/-- Concrete instantiation of `no_self_trade`, discharging its hypotheses. -/
theorem no_self_trade_witness :
    (∃ new, (process_aggressive_order sampleState sampleBuy).trade_history =
        sampleState.trade_history ++ new ∧ ∀ t ∈ new, t.buyer_id ≠ t.seller_id) ∧
    processBuyLoop [(100, [sampleSellOrder])] sampleState selfBuy =
      processBuyLoop (levelPop 100 [] []) sampleState selfBuy ∧
    processSellLoop [(100, [restingBuy])] sampleState selfSell =
      processSellLoop (levelPop 100 [] []) sampleState selfSell :=
  ⟨no_self_trade.1 sampleState sampleBuy,
   no_self_trade.2.1 100 sampleSellOrder [] [] sampleState selfBuy (by decide) (by decide)
     (by decide),
   no_self_trade.2.2 100 restingBuy [] [] sampleState selfSell (by decide) (by decide)
     (by decide)⟩

/-- C2: maker pricing — every trade appended by
`process_aggressive_order` executes at the matched resting order's limit
price and carries that resting order's id and type on the maker side
(the seller for an incoming BUY, the buyer for an incoming SELL), in
both branches. -/
theorem maker_pricing (s : MarketState) (order : Order) :
    ∃ new, (process_aggressive_order s order).trade_history = s.trade_history ++ new ∧
      (order.type = "BUY" → ∀ t ∈ new, ∃ o ∈ ordersOf s.sells,
        t.price = o.price ∧ t.seller_id = o.trader_id ∧ t.seller_type = o.trader_type) ∧
      (order.type = "SELL" → ∀ t ∈ new, ∃ o ∈ ordersOf s.buys,
        t.price = o.price ∧ t.buyer_id = o.trader_id ∧ t.buyer_type = o.trader_type) := by
  obtain ⟨new, hh, hbuy, hsell, _⟩ := process_trades_spec s order
  refine ⟨new, hh, fun h1 t ht => ?_, fun h2 t ht => ?_⟩
  · obtain ⟨_, _, _, o, ho, hp, hsi, hstt, _, _⟩ := hbuy h1 t ht
    exact ⟨o, ho, hp, hsi, hstt⟩
  · obtain ⟨_, _, _, o, ho, hp, hbi, hbt, _, _⟩ := hsell h2 t ht
    exact ⟨o, ho, hp, hbi, hbt⟩

/-- Concrete instantiation of `maker_pricing`, discharging its hypotheses. -/
theorem maker_pricing_witness :
    ∃ new, (process_aggressive_order sampleState sampleBuy).trade_history =
        sampleState.trade_history ++ new ∧
      ∀ t ∈ new, ∃ o ∈ ordersOf sampleState.sells,
        t.price = o.price ∧ t.seller_id = o.trader_id ∧ t.seller_type = o.trader_type := by
  obtain ⟨new, h1, h2, _⟩ := maker_pricing sampleState sampleBuy
  exact ⟨new, h1, h2 rfl⟩

/-- C3: expiry — (1) every trade produced has a maker whose age at
execution satisfies `timestep - origin ≤ max_order_age` over ℤ, i.e. an
order with origin `t` reached while `timestep > t + max_order_age` is
never matched; (2) a front resting order with
`timestep - origin > max_order_age` reached by the live matching loop is
popped and discarded with zero trade effect: the run equals the run on
the book with it removed, with history, ledger and market price
unchanged by the discard itself. -/
theorem stale_order_discard :
    (∀ (s : MarketState) (order : Order),
      ∃ new, (process_aggressive_order s order).trade_history = s.trade_history ++ new ∧
        (order.type = "BUY" → ∀ t ∈ new, ∃ o ∈ ordersOf s.sells,
          t.price = o.price ∧ s.timestep - o.timestep ≤ s.max_order_age) ∧
        (order.type = "SELL" → ∀ t ∈ new, ∃ o ∈ ordersOf s.buys,
          t.price = o.price ∧ s.timestep - o.timestep ≤ s.max_order_age)) ∧
    (∀ (p : ℚ) (o : Order) (os' : List Order) (rest : BookSide) (s : MarketState) (rem : Order),
      s.max_order_age < s.timestep - o.timestep → p ≤ rem.price → 0 < rem.position_size →
      processBuyLoop ((p, o :: os') :: rest) s rem =
        processBuyLoop (levelPop p os' rest) s rem) ∧
    (∀ (p : ℚ) (o : Order) (os' : List Order) (rest : BookSide) (s : MarketState) (rem : Order),
      s.max_order_age < s.timestep - o.timestep → rem.price ≤ p → 0 < rem.position_size →
      processSellLoop ((p, o :: os') :: rest) s rem =
        processSellLoop (levelPop p os' rest) s rem) := by
  refine ⟨?_, ?_, ?_⟩
  · intro s order
    obtain ⟨new, hh, hbuy, hsell, _⟩ := process_trades_spec s order
    refine ⟨new, hh, fun h1 t ht => ?_, fun h2 t ht => ?_⟩
    · obtain ⟨_, _, _, o, ho, hp, _, _, _, hage⟩ := hbuy h1 t ht
      exact ⟨o, ho, hp, hage⟩
    · obtain ⟨_, _, _, o, ho, hp, _, _, _, hage⟩ := hsell h2 t ht
      exact ⟨o, ho, hp, hage⟩
  · intro p o os' rest s rem hst hc hp
    by_cases hid : o.trader_id = rem.trader_id
    · exact processBuyLoop_self p o os' rest s rem ⟨hc, hp⟩ hid
    · exact processBuyLoop_stale p o os' rest s rem ⟨hc, hp⟩ hid hst
  · intro p o os' rest s rem hst hc hp
    by_cases hid : o.trader_id = rem.trader_id
    · exact processSellLoop_self p o os' rest s rem ⟨hc, hp⟩ hid
    · exact processSellLoop_stale p o os' rest s rem ⟨hc, hp⟩ hid hst

/-- Concrete instantiation of `stale_order_discard`, discharging its hypotheses. -/
theorem stale_order_discard_witness :
    (∃ new, (process_aggressive_order sampleState sampleBuy).trade_history =
        sampleState.trade_history ++ new ∧
      ∀ t ∈ new, ∃ o ∈ ordersOf sampleState.sells,
        t.price = o.price ∧
        sampleState.timestep - o.timestep ≤ sampleState.max_order_age) ∧
    processBuyLoop [(100, [sampleSellOrder])] staleState sampleBuy =
      processBuyLoop (levelPop 100 [] []) staleState sampleBuy := by
  constructor
  · obtain ⟨new, h1, h2, _⟩ := stale_order_discard.1 sampleState sampleBuy
    exact ⟨new, h1, h2 rfl⟩
  · exact stale_order_discard.2.1 100 sampleSellOrder [] [] staleState sampleBuy
      (by decide) (by decide) (by decide)

/-- C4: after `process_aggressive_order` (starting from books without
empty levels) and after `clear_market_maker_orders` (unconditionally),
no price level with an empty order queue remains on either side.  A
level only ever comes into existence through `buysPush`/`sellsPush`,
which place the pushed order in it. -/
theorem level_cleanliness :
    (∀ (s : MarketState) (order : Order), cleanSide s.buys → cleanSide s.sells →
      cleanSide (process_aggressive_order s order).buys ∧
      cleanSide (process_aggressive_order s order).sells) ∧
    (∀ s : MarketState, cleanSide (clear_market_maker_orders s).buys ∧
      cleanSide (clear_market_maker_orders s).sells) := by
  constructor
  · intro s order hcb hcs
    by_cases h1 : order.type = "BUY"
    · obtain ⟨_, hsells, _, hbuys⟩ := process_buy_fields s order h1
      constructor
      · rw [hbuys]
        have hb : (processBuyLoop s.sells s order).2.1.buys = s.buys :=
          (processBuyLoop_state s.sells s order).2.2.1
        split
        · exact cleanSide_buysPush _ _ _ (by rw [hb]; exact hcb)
        · rw [hb]
          exact hcb
      · rw [hsells]
        exact processBuyLoop_clean s.sells s order hcs
    · by_cases h2 : order.type = "SELL"
      · obtain ⟨_, hbuys, _, hsells⟩ := process_sell_fields s order h1 h2
        constructor
        · rw [hbuys]
          exact processSellLoop_clean s.buys s order hcb
        · rw [hsells]
          have hsl : (processSellLoop s.buys s order).2.1.sells = s.sells :=
            (processSellLoop_state s.buys s order).2.2.1
          split
          · exact cleanSide_sellsPush _ _ _ (by rw [hsl]; exact hcs)
          · rw [hsl]
            exact hcs
      · rw [process_hold s order h1 h2]
        exact ⟨hcb, hcs⟩
  · intro s
    exact ⟨cleanSide_clearSide s.buys, cleanSide_clearSide s.sells⟩

/-- Concrete instantiation of `level_cleanliness`, discharging its hypotheses. -/
theorem level_cleanliness_witness :
    (cleanSide (process_aggressive_order sampleState sampleBuy).buys ∧
      cleanSide (process_aggressive_order sampleState sampleBuy).sells) ∧
    (cleanSide (clear_market_maker_orders sampleState).buys ∧
      cleanSide (clear_market_maker_orders sampleState).sells) :=
  ⟨level_cleanliness.1 sampleState sampleBuy (by decide) (by decide),
   level_cleanliness.2 sampleState⟩

def tMonkey : Trader :=
  { trader_id := 0, trader_type := "Monkey", params := TraderParams.monkey 1 }

def tReverter : Trader :=
  { trader_id := 1, trader_type := "MeanReverter", params := TraderParams.meanReverter 2 5 }

def tMomentum : Trader :=
  { trader_id := 2, trader_type := "MomentumTrader", params := TraderParams.momentum 2 5 }

def sampleRoster : List Trader := [tMonkey, tReverter, tMomentum]

def sampleTraderMap : ℤ → Option Trader := fun i =>
  if i = 0 then some tMonkey
  else if i = 1 then some tReverter
  else if i = 2 then some tMomentum
  else none

/-- C5: evolution diversity floor — for any evolution event over a
roster with distinct ids containing at least one agent of each of the
three trader types, the post-event roster still contains at least one
of each type, for every kill budget (in particular for
`round(size * kill_fraction)` whenever `kill_fraction < 1`): the
highest-ranked living member of each type is recorded as protected
before culling and is never marked for replacement regardless of rank. -/
theorem evolution_diversity (traders : List Trader) (tmap : ℤ → Option Trader)
    (mp : ℚ) (kill_count : ℕ)
    (hnodup : (traders.map Trader.trader_id).Nodup)
    (hm : ∃ t ∈ traders, t.trader_type = "Monkey")
    (hr : ∃ t ∈ traders, t.trader_type = "MeanReverter")
    (hmo : ∃ t ∈ traders, t.trader_type = "MomentumTrader") :
    (∃ t ∈ (evolve_traders traders tmap mp kill_count).1, t.trader_type = "Monkey") ∧
    (∃ t ∈ (evolve_traders traders tmap mp kill_count).1, t.trader_type = "MeanReverter") ∧
    (∃ t ∈ (evolve_traders traders tmap mp kill_count).1, t.trader_type = "MomentumTrader") :=
  ⟨evolve_preserves_type traders tmap mp kill_count "Monkey" (by decide) hnodup hm,
   evolve_preserves_type traders tmap mp kill_count "MeanReverter" (by decide) hnodup hr,
   evolve_preserves_type traders tmap mp kill_count "MomentumTrader" (by decide) hnodup hmo⟩

/-- Concrete instantiation of `evolution_diversity`, discharging its hypotheses. -/
theorem evolution_diversity_witness :
    (∃ t ∈ (evolve_traders sampleRoster sampleTraderMap 100 2).1,
      t.trader_type = "Monkey") ∧
    (∃ t ∈ (evolve_traders sampleRoster sampleTraderMap 100 2).1,
      t.trader_type = "MeanReverter") ∧
    (∃ t ∈ (evolve_traders sampleRoster sampleTraderMap 100 2).1,
      t.trader_type = "MomentumTrader") :=
  evolution_diversity sampleRoster sampleTraderMap 100 2 (by decide) (by decide) (by decide)
    (by decide)

/-- C6: roster stability — an evolution event preserves the roster's id
sequence, hence its size and id set (each clone carries the killed
agent's id and lands in the roster slot holding that id), and preserves
the key set of `trader_map` (each marked id is already a key); and
`process_aggressive_order`, the only per-tick mutation of trader state,
never adds or removes `trader_map` entries. -/
theorem roster_stability (traders : List Trader) (tmap : ℤ → Option Trader)
    (mp : ℚ) (kill_count : ℕ)
    (hdom : ∀ t ∈ traders, (tmap t.trader_id).isSome = true) :
    ((evolve_traders traders tmap mp kill_count).1).map Trader.trader_id =
      traders.map Trader.trader_id ∧
    ((evolve_traders traders tmap mp kill_count).1).length = traders.length ∧
    (∀ i, ((evolve_traders traders tmap mp kill_count).2 i).isSome = (tmap i).isSome) ∧
    (∀ (s : MarketState) (order : Order) (i : ℤ),
      ((process_aggressive_order s order).trader_map i).isSome =
        (s.trader_map i).isSome) := by
  refine ⟨evolve_roster_ids traders tmap mp kill_count, ?_,
    evolve_map_isSome traders tmap mp kill_count hdom, ?_⟩
  · have := congrArg List.length (evolve_roster_ids traders tmap mp kill_count)
    simpa using this
  · intro s order i
    by_cases h1 : order.type = "BUY"
    · rw [(process_buy_fields s order h1).2.2.1]
      exact (processBuyLoop_state s.sells s order).2.2.2 i
    · by_cases h2 : order.type = "SELL"
      · rw [(process_sell_fields s order h1 h2).2.2.1]
        exact (processSellLoop_state s.buys s order).2.2.2 i
      · rw [process_hold s order h1 h2]

/-- Concrete instantiation of `roster_stability`, discharging its hypotheses. -/
theorem roster_stability_witness :
    ((evolve_traders sampleRoster sampleTraderMap 100 2).1).map Trader.trader_id =
      sampleRoster.map Trader.trader_id ∧
    ((evolve_traders sampleRoster sampleTraderMap 100 2).1).length = sampleRoster.length ∧
    ((evolve_traders sampleRoster sampleTraderMap 100 2).2 1).isSome =
      (sampleTraderMap 1).isSome ∧
    ((process_aggressive_order sampleState sampleBuy).trader_map 5).isSome =
      (sampleState.trader_map 5).isSome := by
  obtain ⟨h1, h2, h3, h4⟩ := roster_stability sampleRoster sampleTraderMap 100 2 (by decide)
  exact ⟨h1, h2, h3 1, h4 sampleState sampleBuy 5⟩

/-- C7: `Trader.update_position` performs the deterministic ledger
arithmetic of the source — on "BUY": `cash -= price` (one unit of
notional per invocation, as the code is written) and
`position += quantity`; on "SELL" the inverse — and for one executed
trade the engine's ledger transform `applyBuyerSeller` applies
`update_position` exactly once to the buyer (as "BUY") and exactly once
to the seller (as "SELL"), leaving every other id untouched; both trade
branches build their ledger update as exactly this transform. -/
theorem ledger_update :
    (∀ (t : Trader) (price quantity : ℚ),
      (t.update_position "BUY" price quantity).cash = t.cash - price ∧
      (t.update_position "BUY" price quantity).position = t.position + quantity ∧
      (t.update_position "SELL" price quantity).cash = t.cash + price ∧
      (t.update_position "SELL" price quantity).position = t.position - quantity) ∧
    (∀ (m : ℤ → Option Trader) (buyer seller : ℤ) (price quantity : ℚ), buyer ≠ seller →
      applyBuyerSeller m buyer seller price quantity buyer =
        (m buyer).map (fun t => t.update_position "BUY" price quantity) ∧
      applyBuyerSeller m buyer seller price quantity seller =
        (m seller).map (fun t => t.update_position "SELL" price quantity) ∧
      ∀ i, i ≠ buyer → i ≠ seller → applyBuyerSeller m buyer seller price quantity i = m i) ∧
    (∀ (s : MarketState) (rem o : Order),
      (buyTradeState s rem o).trader_map =
        applyBuyerSeller s.trader_map rem.trader_id o.trader_id o.price
          (min rem.position_size o.position_size) ∧
      (sellTradeState s rem o).trader_map =
        applyBuyerSeller s.trader_map o.trader_id rem.trader_id o.price
          (min rem.position_size o.position_size)) := by
  refine ⟨?_, ?_, ?_⟩
  · intro t price quantity
    unfold Trader.update_position
    refine ⟨?_, ?_, ?_, ?_⟩ <;> simp
  · intro m buyer seller price quantity hne
    unfold applyBuyerSeller
    dsimp only
    refine ⟨?_, ?_, ?_⟩
    · rw [if_neg hne, if_pos rfl]
    · rw [if_pos rfl, if_neg (Ne.symm hne)]
    · intro i hib his
      rw [if_neg his, if_neg hib]
  · intro s rem o
    exact ⟨rfl, rfl⟩

/-- Concrete instantiation of `ledger_update`, discharging its hypotheses. -/
theorem ledger_update_witness :
    ((tMonkey.update_position "BUY" 7 2).cash = tMonkey.cash - 7 ∧
      (tMonkey.update_position "BUY" 7 2).position = tMonkey.position + 2 ∧
      (tMonkey.update_position "SELL" 7 2).cash = tMonkey.cash + 7 ∧
      (tMonkey.update_position "SELL" 7 2).position = tMonkey.position - 2) ∧
    (applyBuyerSeller sampleTraderMap 0 1 7 2 0 =
      (sampleTraderMap 0).map (fun t => t.update_position "BUY" 7 2) ∧
     applyBuyerSeller sampleTraderMap 0 1 7 2 1 =
      (sampleTraderMap 1).map (fun t => t.update_position "SELL" 7 2) ∧
     applyBuyerSeller sampleTraderMap 0 1 7 2 2 = sampleTraderMap 2) := by
  obtain ⟨h1, h2, _⟩ := ledger_update
  obtain ⟨ha, hb, hc⟩ := h2 sampleTraderMap 0 1 7 2 (by decide)
  exact ⟨h1 tMonkey 7 2, ha, hb, hc 2 (by decide) (by decide)⟩

def sampleAskOrder2 : Order :=
  { sampleSellOrder with price := 120 }

def sampleState2 : MarketState :=
  { sampleState with sells := [(120, [sampleAskOrder2])] }

/-- C8 counterexample: with an empty bid side and best ask 100, the tick
mid price is `(0 + 100) / 2 = 50` — an ordinary finite number, not one
of the program's absence sentinels (0 and DBL_MAX); moreover the
empty-side mid varies with the book (50 here, 60 with best ask 120), so
it cannot be any fixed sentinel, refuting the claim's "or a sentinel
when at least one side is empty". -/
theorem mid_price_not_sentinel :
    sampleState.buys = [] ∧
    midPrice sampleState = 50 ∧
    (50 : ℚ) ≠ 0 ∧ (50 : ℚ) ≠ maxDouble ∧
    ¬(∀ s s' : MarketState, s.buys = [] → s'.buys = [] → midPrice s = midPrice s') := by
  have hm1 : midPrice sampleState = 50 := by
    show ((0 : ℚ) + 100) / 2 = 50
    norm_num
  have hm2 : midPrice sampleState2 = 60 := by
    show ((0 : ℚ) + 120) / 2 = 60
    norm_num
  refine ⟨rfl, hm1, by norm_num, ?_, fun h => ?_⟩
  · intro hc
    simp only [maxDouble] at hc
    norm_num at hc
  · have h2 := h sampleState sampleState2 rfl rfl
    rw [hm1, hm2] at h2
    norm_num at h2

/-- C8 (amended): `get_best_bid` and `get_best_ask` return the absence
sentinels 0 and DBL_MAX when their side is empty and the true best
price otherwise, and the tick's mid price is computed unconditionally
as `(best_bid + best_ask) / 2` — the genuine average when both sides
are non-empty; when a side is empty the sentinel value enters the
average, so the mid is a book-dependent number, not itself a
sentinel. -/
theorem best_quotes_and_mid (s : MarketState) :
    (s.buys = [] → get_best_bid s = 0) ∧
    (s.sells = [] → get_best_ask s = maxDouble) ∧
    (∀ (p : ℚ) (l : List Order) (b' : BookSide),
      s.buys = (p, l) :: b' → get_best_bid s = p) ∧
    (∀ (p : ℚ) (l : List Order) (b' : BookSide),
      s.sells = (p, l) :: b' → get_best_ask s = p) ∧
    midPrice s = (get_best_bid s + get_best_ask s) / 2 := by
  refine ⟨?_, ?_, ?_, ?_, rfl⟩
  · intro h
    unfold get_best_bid
    rw [h]
  · intro h
    unfold get_best_ask
    rw [h]
  · intro p l b' h
    unfold get_best_bid
    rw [h]
  · intro p l b' h
    unfold get_best_ask
    rw [h]

/-- Concrete instantiation of `best_quotes_and_mid`, discharging its hypotheses. -/
theorem best_quotes_and_mid_witness :
    get_best_bid sampleState = 0 ∧
    get_best_ask sampleState = 100 ∧
    midPrice sampleState = (get_best_bid sampleState + get_best_ask sampleState) / 2 := by
  obtain ⟨h1, _, _, h4, h5⟩ := best_quotes_and_mid sampleState
  exact ⟨h1 rfl, h4 100 [sampleSellOrder] [] rfl, h5⟩

/-- C9: FIFO within a price level — pushing at an existing price appends
the order at the back of that level's queue, and an incoming crossing
order always matches the front (earliest-inserted) resting order of the
best opposing level first: the first trade appended is exactly the
trade against that front order, with its price, ids, types and the
matched quantity. -/
theorem fifo_within_level :
    (∀ (p : ℚ) (o : Order) (os : List Order) (rest : BookSide),
      sellsPush p o ((p, os) :: rest) = (p, os ++ [o]) :: rest) ∧
    (∀ (p : ℚ) (o : Order) (os : List Order) (rest : BookSide),
      buysPush p o ((p, os) :: rest) = (p, os ++ [o]) :: rest) ∧
    (∀ (s : MarketState) (order : Order) (p : ℚ) (o : Order) (os' : List Order)
        (rest : BookSide),
      s.sells = (p, o :: os') :: rest → order.type = "BUY" → p ≤ order.price →
      0 < order.position_size → o.trader_id ≠ order.trader_id →
      s.timestep - o.timestep ≤ s.max_order_age →
      ∃ ts', (process_aggressive_order s order).trade_history =
        s.trade_history ++ (buyTrade s order o :: ts')) ∧
    (∀ (s : MarketState) (order : Order) (p : ℚ) (o : Order) (os' : List Order)
        (rest : BookSide),
      s.buys = (p, o :: os') :: rest → order.type = "SELL" → order.price ≤ p →
      0 < order.position_size → o.trader_id ≠ order.trader_id →
      s.timestep - o.timestep ≤ s.max_order_age →
      ∃ ts', (process_aggressive_order s order).trade_history =
        s.trade_history ++ (sellTrade s order o :: ts')) := by
  refine ⟨?_, ?_, ?_, ?_⟩
  · intro p o os rest
    rw [sellsPush, if_pos rfl]
  · intro p o os rest
    rw [buysPush, if_pos rfl]
  · intro s order p o os' rest hsells hb hc hp hid hage
    rw [(process_buy_fields s order hb).1, hsells]
    by_cases hq : 0 < o.position_size - min order.position_size o.position_size
    · obtain ⟨new1, hh1, _⟩ := processBuyLoop_trades
        (sellsPush o.price
          { o with position_size := o.position_size - min order.position_size o.position_size }
          (levelPop p os' rest))
        (buyTradeState s order o)
        { order with position_size := order.position_size - min order.position_size o.position_size }
      refine ⟨new1, ?_⟩
      rw [processBuyLoop_trade_reinsert p o os' rest s order ⟨hc, hp⟩ hid
        (not_lt.mpr hage) hq, hh1]
      show (s.trade_history ++ [buyTrade s order o]) ++ new1 =
        s.trade_history ++ (buyTrade s order o :: new1)
      simp
    · obtain ⟨new1, hh1, _⟩ := processBuyLoop_trades (levelPop p os' rest)
        (buyTradeState s order o)
        { order with position_size := order.position_size - min order.position_size o.position_size }
      refine ⟨new1, ?_⟩
      rw [processBuyLoop_trade_full p o os' rest s order ⟨hc, hp⟩ hid
        (not_lt.mpr hage) hq, hh1]
      show (s.trade_history ++ [buyTrade s order o]) ++ new1 =
        s.trade_history ++ (buyTrade s order o :: new1)
      simp
  · intro s order p o os' rest hbuys hb hc hp hid hage
    rw [(process_sell_fields s order (by rw [hb]; decide) hb).1, hbuys]
    by_cases hq : 0 < o.position_size - min order.position_size o.position_size
    · obtain ⟨new1, hh1, _⟩ := processSellLoop_trades
        (buysPush o.price
          { o with position_size := o.position_size - min order.position_size o.position_size }
          (levelPop p os' rest))
        (sellTradeState s order o)
        { order with position_size := order.position_size - min order.position_size o.position_size }
      refine ⟨new1, ?_⟩
      rw [processSellLoop_trade_reinsert p o os' rest s order ⟨hc, hp⟩ hid
        (not_lt.mpr hage) hq, hh1]
      show (s.trade_history ++ [sellTrade s order o]) ++ new1 =
        s.trade_history ++ (sellTrade s order o :: new1)
      simp
    · obtain ⟨new1, hh1, _⟩ := processSellLoop_trades (levelPop p os' rest)
        (sellTradeState s order o)
        { order with position_size := order.position_size - min order.position_size o.position_size }
      refine ⟨new1, ?_⟩
      rw [processSellLoop_trade_full p o os' rest s order ⟨hc, hp⟩ hid
        (not_lt.mpr hage) hq, hh1]
      show (s.trade_history ++ [sellTrade s order o]) ++ new1 =
        s.trade_history ++ (sellTrade s order o :: new1)
      simp

/-- Concrete instantiation of `fifo_within_level`, discharging its hypotheses. -/
theorem fifo_within_level_witness :
    sellsPush 100 sampleSellOrder ((100, [sampleSellOrder]) :: []) =
      (100, [sampleSellOrder] ++ [sampleSellOrder]) :: [] ∧
    (∃ ts', (process_aggressive_order sampleState sampleBuy).trade_history =
      sampleState.trade_history ++ (buyTrade sampleState sampleBuy sampleSellOrder :: ts')) :=
  ⟨fifo_within_level.1 100 sampleSellOrder [sampleSellOrder] [],
   fifo_within_level.2.2.1 sampleState sampleBuy 100 sampleSellOrder [] [] rfl rfl
     (by decide) (by decide) (by decide) (by decide)⟩

def sampleMaker : MarketMaker :=
  { id := 100000, fundamental_price := 100, spread := 2 }

def sampleQuoteBid : Order :=
  { type := "BUY", price := 100 - 2 / 2 + 0, trader_id := 100000, timestep := 0,
    trader_type := "MarketMaker", position_size := 10 }

def mmRestingAsk : Order :=
  { type := "SELL", price := 100, trader_id := 100000, timestep := 0,
    trader_type := "MarketMaker", position_size := 10 }

def mmStaleState : MarketState :=
  { staleState with sells := [(100, [mmRestingAsk])] }

/-- C10: market-maker quotes are always constructed with origin
timestep 0; consequently, once `timestep > max_order_age`, in a book
whose resting MarketMaker orders all have origin 0 no trade against a
resting market-maker order is produced by `process_aggressive_order`:
every executed maker satisfies the freshness bound, which an origin-0
order cannot meet. -/
theorem mm_quotes_expire :
    (∀ (mm : MarketMaker) (mp : ℚ), ∀ o ∈ mm.quote mp,
      o.timestep = 0 ∧ o.trader_type = "MarketMaker") ∧
    (∀ (s : MarketState) (order : Order), s.max_order_age < s.timestep →
      (∀ o ∈ ordersOf s.sells, o.trader_type = "MarketMaker" → o.timestep = 0) →
      (∀ o ∈ ordersOf s.buys, o.trader_type = "MarketMaker" → o.timestep = 0) →
      ∃ new, (process_aggressive_order s order).trade_history = s.trade_history ++ new ∧
        (order.type = "BUY" → ∀ t ∈ new, t.seller_type ≠ "MarketMaker") ∧
        (order.type = "SELL" → ∀ t ∈ new, t.buyer_type ≠ "MarketMaker")) := by
  constructor
  · intro mm mp o ho
    unfold MarketMaker.quote at ho
    simp only [List.mem_cons, List.not_mem_nil, or_false] at ho
    rcases ho with rfl | rfl
    · exact ⟨rfl, rfl⟩
    · exact ⟨rfl, rfl⟩
  · intro s order hage hsmm hbmm
    obtain ⟨new, hh, hbuy, hsell, _⟩ := process_trades_spec s order
    refine ⟨new, hh, fun h1 t ht => ?_, fun h2 t ht => ?_⟩
    · obtain ⟨_, _, _, o, ho, _, _, hstt, _, hstale⟩ := hbuy h1 t ht
      intro hmm
      have h0 : o.timestep = 0 := hsmm o ho (by rw [← hstt]; exact hmm)
      rw [h0] at hstale
      omega
    · obtain ⟨_, _, _, o, ho, _, _, hbt, _, hstale⟩ := hsell h2 t ht
      intro hmm
      have h0 : o.timestep = 0 := hbmm o ho (by rw [← hbt]; exact hmm)
      rw [h0] at hstale
      omega

/-- Concrete instantiation of `mm_quotes_expire`, discharging its hypotheses. -/
theorem mm_quotes_expire_witness :
    (sampleQuoteBid.timestep = 0 ∧ sampleQuoteBid.trader_type = "MarketMaker") ∧
    (∃ new, (process_aggressive_order mmStaleState sampleBuy).trade_history =
      mmStaleState.trade_history ++ new ∧ ∀ t ∈ new, t.seller_type ≠ "MarketMaker") := by
  constructor
  · exact mm_quotes_expire.1 sampleMaker 100 sampleQuoteBid (List.mem_cons_self _ _)
  · obtain ⟨new, h1, h2, _⟩ := mm_quotes_expire.2 mmStaleState sampleBuy (by decide)
      (by decide) (by decide)
    exact ⟨new, h1, h2 rfl⟩
